import Mathlib

/-!
Verification of the `HandleOptionalParameters` CDK construct
(`src/lib/index.ts`): a shallow embedding of the Step Functions state
machine the construct compiles, and proofs about its run-time behaviour.

The state machine is a fixed chain of Pass/Map/Choice states acting on
JSON values.  We model JSON values with integer numbers (the claims never
involve fractional numbers), intrinsic functions `States.Format`,
`States.JsonToString`, `States.JsonMerge`, `States.StringToJson` as Lean
functions, the per-run `States.UUID()` draws as a function from field
name to token, and `$$.Execution.Id` as a string parameter.  The user's
`dataProcessing` expression (applied to `$.value` with `$.propertyName`
in scope) is modeled as a function `Json → String → Json`.
-/

set_option maxHeartbeats 1600000
set_option maxRecDepth 8192

namespace HOP

/-- JSON-compatible values.  Numbers are modeled as integers: every value
appearing in the claims is integral, and no arithmetic is performed on
numbers anywhere in the pipeline. -/
inductive Json where
  | null : Json
  | bool : Bool → Json
  | num : Int → Json
  | str : String → Json
  | arr : List Json → Json
  | obj : List (String × Json) → Json
deriving Inhabited


/-- Decimal digit characters of `n`, most significant first, prepended to
`acc`; `fuel` bounds the recursion (any `fuel > n` is enough). -/
def digitsOfAux : Nat → Nat → List Char → List Char
  | 0, _, acc => acc
  | fuel + 1, n, acc =>
    if n < 10 then Char.ofNat (48 + n % 10) :: acc
    else digitsOfAux fuel (n / 10) (Char.ofNat (48 + n % 10) :: acc)


/-- Decimal digit characters of `n`, most significant first
(so `digitsOf 0 [] = ['0']`). -/
def digitsOf (n : Nat) (acc : List Char) : List Char :=
  digitsOfAux (n + 1) n acc


/-- Characters of an integer: optional minus sign, then decimal digits. -/
def intChars (i : Int) : List Char :=
  if i < 0 then '-' :: digitsOf i.natAbs [] else digitsOf i.natAbs []


/-- JSON string escaping of one character, as performed by the
serializer behind `States.JsonToString`. -/
def escChar (c : Char) : List Char :=
  if c = '"' then ['\\', '"']
  else if c = '\\' then ['\\', '\\']
  else if c = '\n' then ['\\', 'n']
  else if c = '\t' then ['\\', 't']
  else if c = '\r' then ['\\', 'r']
  else [c]


/-- JSON string escaping of a character list. -/
def escStr : List Char → List Char
  | [] => []
  | c :: cs => escChar c ++ escStr cs


mutual

/-- Characters of the compact JSON rendering of a value, as produced by
`States.JsonToString` (no whitespace). -/
def jsonChars : Json → List Char
  | Json.null => ['n', 'u', 'l', 'l']
  | Json.bool true => ['t', 'r', 'u', 'e']
  | Json.bool false => ['f', 'a', 'l', 's', 'e']
  | Json.num i => intChars i
  | Json.str s => '"' :: (escStr s.data ++ ['"'])
  | Json.arr es => '[' :: (elemChars es ++ [']'])
  | Json.obj ms => '{' :: (memberChars ms ++ ['}'])

/-- Characters of a comma-separated element list. -/
def elemChars : List Json → List Char
  | [] => []
  | e :: es => jsonChars e ++ elemTailChars es

/-- Characters of the remaining elements, each preceded by a comma. -/
def elemTailChars : List Json → List Char
  | [] => []
  | e :: es => ',' :: (jsonChars e ++ elemTailChars es)

/-- Characters of a comma-separated member list. -/
def memberChars : List (String × Json) → List Char
  | [] => []
  | (k, v) :: ms =>
    '"' :: (escStr k.data ++ '"' :: ':' :: (jsonChars v ++ memberTailChars ms))

/-- Characters of the remaining members, each preceded by a comma. -/
def memberTailChars : List (String × Json) → List Char
  | [] => []
  | (k, v) :: ms =>
    ',' :: '"' :: (escStr k.data ++ '"' :: ':' :: (jsonChars v ++ memberTailChars ms))

end

/-- `States.JsonToString`: compact JSON text of a value. -/
def jsonToString (j : Json) : String := ⟨jsonChars j⟩


/-- Decimal digit test. -/
def isDigitCh (c : Char) : Bool := 48 ≤ c.toNat && c.toNat ≤ 57


/-- JSON whitespace test. -/
def isSpaceCh (c : Char) : Bool := c = ' ' || c = '\n' || c = '\t' || c = '\r'


/-- Drop leading whitespace. -/
def dropSpaces : List Char → List Char
  | [] => []
  | c :: cs => if isSpaceCh c then dropSpaces cs else c :: cs


/-- Split a maximal leading digit run off the input. -/
def grabDigits : List Char → List Char × List Char
  | [] => ([], [])
  | c :: cs =>
    if isDigitCh c then
      let p := grabDigits cs
      (c :: p.1, p.2)
    else ([], c :: cs)


/-- Numeric value of a digit-character run. -/
def digitsVal (ds : List Char) : Nat :=
  ds.foldl (fun a c => a * 10 + (c.toNat - 48)) 0


/-- Inverse of `escChar` on the character following a backslash. -/
def unescCh : Char → Option Char
  | 'n' => some '\n'
  | 't' => some '\t'
  | 'r' => some '\r'
  | '"' => some '"'
  | '\\' => some '\\'
  | '/' => some '/'
  | _ => none


/-- Parse the body of a string literal, after the opening quote; returns
the unescaped content and the input after the closing quote. -/
def strBody : List Char → Option (List Char × List Char)
  | [] => none
  | '"' :: r => some ([], r)
  | '\\' :: e :: r =>
    match unescCh e, strBody r with
    | some c, some p => some (c :: p.1, p.2)
    | _, _ => none
  | c :: r =>
    match strBody r with
    | some p => some (c :: p.1, p.2)
    | none => none


/-- Parse an integer token: optional minus sign, then a nonempty digit
run. -/
def numToken : List Char → Option (Int × List Char)
  | '-' :: cs =>
    match grabDigits cs with
    | ([], _) => none
    | (ds, r) => some (-(digitsVal ds : Int), r)
  | cs =>
    match grabDigits cs with
    | ([], _) => none
    | (ds, r) => some ((digitsVal ds : Int), r)


/-- Install a key in an object's member list: if present, the value is
replaced in place (the position of the first occurrence is kept);
otherwise the pair is appended.  This is how the JSON parser behind
`States.StringToJson` resolves duplicate keys: the last value wins. -/
def setKey : List (String × Json) → String → Json → List (String × Json)
  | [], k, v => [(k, v)]
  | (k0, v0) :: ms, k, v =>
    if k0 = k then (k0, v) :: ms else (k0, v0) :: setKey ms k v


mutual

/-- Parse one JSON value (fuel-indexed).  Returns the value and the
unconsumed input. -/
def jsonValue : Nat → List Char → Option (Json × List Char)
  | 0, _ => none
  | fuel + 1, cs =>
    match dropSpaces cs with
    | 'n' :: 'u' :: 'l' :: 'l' :: r => some (Json.null, r)
    | 't' :: 'r' :: 'u' :: 'e' :: r => some (Json.bool true, r)
    | 'f' :: 'a' :: 'l' :: 's' :: 'e' :: r => some (Json.bool false, r)
    | '"' :: r =>
      match strBody r with
      | some p => some (Json.str ⟨p.1⟩, p.2)
      | none => none
    | '[' :: r => jsonElems fuel (dropSpaces r)
    | '{' :: r => jsonMembers fuel (dropSpaces r)
    | other =>
      match numToken other with
      | some p => some (Json.num p.1, p.2)
      | none => none

/-- Parse an array's contents after `[` (leading whitespace dropped). -/
def jsonElems : Nat → List Char → Option (Json × List Char)
  | 0, _ => none
  | fuel + 1, cs =>
    match cs with
    | ']' :: r => some (Json.arr [], r)
    | _ =>
      match jsonValue fuel cs with
      | some p => jsonElemsRest fuel [p.1] p.2
      | none => none

/-- Parse the remaining array elements, accumulating in reverse. -/
def jsonElemsRest : Nat → List Json → List Char → Option (Json × List Char)
  | 0, _, _ => none
  | fuel + 1, acc, cs =>
    match dropSpaces cs with
    | ']' :: r => some (Json.arr acc.reverse, r)
    | ',' :: r =>
      match jsonValue fuel r with
      | some p => jsonElemsRest fuel (p.1 :: acc) p.2
      | none => none
    | _ => none

/-- Parse an object's contents after `{` (leading whitespace dropped). -/
def jsonMembers : Nat → List Char → Option (Json × List Char)
  | 0, _ => none
  | fuel + 1, cs =>
    match cs with
    | '}' :: r => some (Json.obj [], r)
    | '"' :: r =>
      match strBody r with
      | some kp =>
        match dropSpaces kp.2 with
        | ':' :: r2 =>
          match jsonValue fuel r2 with
          | some vp => jsonMembersRest fuel (setKey [] ⟨kp.1⟩ vp.1) vp.2
          | none => none
        | _ => none
      | none => none
    | _ => none

/-- Parse the remaining object members, accumulating with `setKey`. -/
def jsonMembersRest : Nat → List (String × Json) → List Char → Option (Json × List Char)
  | 0, _, _ => none
  | fuel + 1, acc, cs =>
    match dropSpaces cs with
    | '}' :: r => some (Json.obj acc, r)
    | ',' :: r =>
      match dropSpaces r with
      | '"' :: r1 =>
        match strBody r1 with
        | some kp =>
          match dropSpaces kp.2 with
          | ':' :: r2 =>
            match jsonValue fuel r2 with
            | some vp => jsonMembersRest fuel (setKey acc ⟨kp.1⟩ vp.1) vp.2
            | none => none
          | _ => none
        | none => none
      | _ => none
    | _ => none

end

/-- `States.StringToJson`: parse a complete JSON document (only
whitespace may follow the value). -/
def stringToJson (s : String) : Option Json :=
  match jsonValue (s.data.length + 1) s.data with
  | some p => if dropSpaces p.2 = [] then some p.1 else none
  | none => none


mutual

/-- Canonical form of a value under the duplicate-key collapse the parser
performs: objects are rebuilt member by member with `setKey`.  On values
whose objects all have distinct keys this is the identity. -/
def canon : Json → Json
  | Json.null => Json.null
  | Json.bool b => Json.bool b
  | Json.num i => Json.num i
  | Json.str s => Json.str s
  | Json.arr es => Json.arr (canonList es)
  | Json.obj ms => Json.obj (canonMembers [] ms)

/-- `canon` on each element of a list. -/
def canonList : List Json → List Json
  | [] => []
  | e :: es => canon e :: canonList es

/-- Fold a member list into an accumulator with `setKey`, canonicalizing
each value. -/
def canonMembers : List (String × Json) → List (String × Json) → List (String × Json)
  | acc, [] => acc
  | acc, (k, v) :: ms => canonMembers (setKey acc k (canon v)) ms

end

/-! ## The compiled state machine

One Lean definition per state of `src/lib/index.ts`, in source order.
Run-scoped quantities are parameters: `uuid f` is the `States.UUID()`
value drawn for field `f` by the Generate Placeholder state, `execId` is
`$$.Execution.Id`, and `dataProcessing : Json → String → Json` is the
user's expression evaluated on `$.value` with `$.propertyName` in
scope. -/

/-- An entry of the `transformedInput` array:
`\x7b propertyName, value \x7d` (comment at lines 100-113). -/
structure Item where
  propertyName : String
  value : Json


/-- The fields of one Map-iteration output that the `resultSelector`
reads.  `passNullValues` additionally sets a constant `separator` field,
which nothing ever reads, so it is not modeled. -/
structure Frag where
  valueToConcat : String
  value : String


/-- Key lookup in a record (a JSON object's member list). -/
def lookupKey : List (String × Json) → String → Option Json
  | [], _ => none
  | (k0, v) :: r, k => if k0 = k then some v else lookupKey r k


/-- The compiled field order: required properties first, then optional
ones, each in caller-given order (`[...requiredProperties,
...optionalProperties]`, used at lines 61, 124, 191, 198). -/
def declaredFields (req opt : List String) : List String := req ++ opt


/-- Generate Placeholder (lines 58-69): builds an object pairing every
declared field with a fresh `States.UUID()` draw.  Duplicate names
collapse to a single key, as in the JS object literal the `reduce`
builds. -/
def generatePlaceholderTask (req opt : List String) (uuid : String → String) :
    List (String × Json) :=
  (declaredFields req opt).dedup.map (fun f => (f, Json.str (uuid f)))


/-- `States.JsonMerge(base, overlay, false)`: shallow merge; on shared
keys the overlay's value wins, and keys of either side appear in the
result. -/
def jsonMerge (base overlay : List (String × Json)) : List (String × Json) :=
  base.map (fun p => (p.1, (lookupKey overlay p.1).getD p.2)) ++
    overlay.filter (fun p => (lookupKey base p.1).isNone)


/-- Merge with placeholder (lines 85-94):
`States.JsonMerge($.placeholder, $.input, false)`, so the user's input
values override the placeholders. -/
def mergeWithPlaceholderValuesTask (placeholder input : List (String × Json)) :
    List (String × Json) :=
  jsonMerge placeholder input


/-- Optional properties as array (lines 119-133): projects
`$.output.<name>` for each declared field, in compiled order.  A missing
path would be a States.Runtime error, modeled as `none`. -/
def optionalPropertiesAsArrayTask (req opt : List String)
    (merged : List (String × Json)) : Option (List Item) :=
  (declaredFields req opt).mapM
    (fun f => (lookupKey merged f).map (fun v => Item.mk f v))


/-- The Choice condition (line 184):
`Condition.stringEqualsJsonPath("$.value", "$$.Execution.Id")`.  It holds
only when the item's value is a string equal to the execution id; a value
of any other JSON type never matches. -/
def choiceCondition (v : Json) (execId : String) : Bool :=
  match v with
  | Json.str s => s == execId
  | _ => false


/-- `States.Format`: replaces each placeholder (an open brace directly
followed by a close brace) with the next argument, left to right.
Argument text is inserted literally, never rescanned. -/
def statesFormatAux : List Char → List String → List Char
  | [], _ => []
  | '{' :: '}' :: cs, a :: args2 => a.data ++ statesFormatAux cs args2
  | '{' :: '}' :: cs, [] => '{' :: '}' :: statesFormatAux cs []
  | c :: cs, args => c :: statesFormatAux cs args


/-- `States.Format` on strings. -/
def statesFormat (fmt : String) (args : List String) : String :=
  ⟨statesFormatAux fmt.data args⟩


/-- Process object values (lines 162-167): applies the user's
`dataProcessing` to the value, keeping the property name. -/
def processObjectValuesTask (dataProcessing : Json → String → Json) (it : Item) : Item :=
  Item.mk it.propertyName (dataProcessing it.value it.propertyName)


/-- Values (lines 170-177): renders the pair once in comma-prefixed form
(`States.Format(',"\x7b\x7d": \x7b\x7d', $.propertyName,
States.JsonToString($.value))`, the `valueToConcat` field) and once in
opening form (same format without the leading comma, the `value`
field). -/
def passValues (it : Item) : Frag :=
  Frag.mk
    (statesFormat ",\"\x7b\x7d\": \x7b\x7d" [it.propertyName, jsonToString it.value])
    (statesFormat "\"\x7b\x7d\": \x7b\x7d" [it.propertyName, jsonToString it.value])


/-- Null values (lines 178-180): the empty fragment. -/
def passNullValues : Frag := Frag.mk "" ""


/-- The per-item branch (lines 182-187): when the Choice condition
matches, Null values; otherwise process then format. -/
def choiceTask (dataProcessing : Json → String → Json) (execId : String)
    (it : Item) : Frag :=
  if choiceCondition it.value execId then passNullValues
  else passValues (processObjectValuesTask dataProcessing it)


/-- The Map state's iterator (lines 149-155, 189): `choiceTask` on every
item of `$.transformedInput`, index-aligned. -/
def mapTaskIterations (dataProcessing : Json → String → Json) (execId : String)
    (items : List Item) : List Frag :=
  items.map (choiceTask dataProcessing execId)


/-- The `notNullValues` result selector (line 152):
`$.[?(@.valueToConcat != ' ')].value`.  The comparison is against a
single space; no branch ever produces `" "`, so the filter keeps every
iteration's `value`. -/
def notNullValuesSelector (frags : List Frag) : List String :=
  (frags.filter (fun fr => fr.valueToConcat != " ")).map (fun fr => fr.value)


/-- The `allValues` result selector (line 153): `$.*.valueToConcat`. -/
def allValuesSelector (frags : List Frag) : List String :=
  frags.map (fun fr => fr.valueToConcat)


/-- The first reduce (lines 191-196): one placeholder (followed by a
space) per declared field, after the opening quote's leading space of
`"States.Format(' "`. -/
def concatFormatPrefix (req opt : List String) : String :=
  (declaredFields req opt).foldl (fun s _ => s ++ "\x7b\x7d ") " "


/-- The format string of the second reduce (lines 198-203): the prefix
followed by the literal `" \x7b\x7d \x7b\x7d \x7b\x7d"` contributed by
`string.concat(" \x7b\x7d \x7b\x7d \x7b\x7d', '\x7b', $.notNullValues[0]  ")`. -/
def concatFormatString (req opt : List String) : String :=
  concatFormatPrefix req opt ++ " \x7b\x7d \x7b\x7d \x7b\x7d"


/-- Concat (lines 191-214): `States.Format` applied to `'\x7b'`,
`$.notNullValues[0]`, every `$.allValues[i]` in order, and `'\x7d'`.
When `notNullValues` is empty the `[0]` path fails (States.Runtime),
modeled as `none`. -/
def concatTask (req opt : List String) (notNullValues allValues : List String) :
    Option String :=
  match notNullValues with
  | [] => none
  | v0 :: _ =>
    some (statesFormat (concatFormatString req opt)
      ("\x7b" :: v0 :: (allValues ++ ["\x7d"])))


/-- ToJson (lines 226-231): `States.StringToJson($.object)` with
`outputPath: "$.object"`, so the parsed value is the machine's output.  A
parse failure is a States.Runtime error, modeled as `none`. -/
def toJsonTask (s : String) : Option Json := stringToJson s


/-- One run of the compiled state machine (definition chain at lines
233-244), from the input record to the output value. -/
def evaluate (req opt : List String) (dataProcessing : Json → String → Json)
    (uuid : String → String) (execId : String)
    (input : List (String × Json)) : Option Json := do
  let placeholder := generatePlaceholderTask req opt uuid
  let merged := mergeWithPlaceholderValuesTask placeholder input
  let items ← optionalPropertiesAsArrayTask req opt merged
  let frags := mapTaskIterations dataProcessing execId items
  let text ← concatTask req opt (notNullValuesSelector frags) (allValuesSelector frags)
  toJsonTask text


/-- Build-time error taxonomy claimed by the specification. -/
inductive SchemaError where
  | invalidSchema : SchemaError


/-- The compiled unit: the schema and the run function. -/
structure CompiledUnit where
  requiredProperties : List String
  optionalProperties : List String
  run : (String → String) → String → List (String × Json) → Option Json


/-- The construct's build step (the constructor, lines 26-247): it
destructures the props and unconditionally wires the six states into a
state machine.  The source contains no validation and no failing path;
the `Except` result type exists so the specification's claimed
`InvalidSchema` failure is expressible, and the constructor never uses
it. -/
def handleOptionalParametersBuild (req opt : List String)
    (dataProcessing : Json → String → Json) : Except SchemaError CompiledUnit :=
  Except.ok (CompiledUnit.mk req opt (fun uuid execId input =>
    evaluate req opt dataProcessing uuid execId input))


/-! ## Decimal digits: the number codec round trip -/

/-- The digit character of `n % 10`. -/
def digitCh (n : Nat) : Char := Char.ofNat (48 + n % 10)


/-- True when the input starts with a decimal digit. -/
def headIsDigit : List Char → Bool
  | [] => false
  | c :: _ => isDigitCh c


/-! ## Parser fuel requirements -/

mutual

/-- Fuel needed by `jsonValue` on the rendering of `j`. -/
def pfuel : Json → Nat
  | Json.null => 1
  | Json.bool _ => 1
  | Json.num _ => 1
  | Json.str _ => 1
  | Json.arr es => 1 + pfuelElems es
  | Json.obj ms => 1 + pfuelMembers ms

/-- Fuel needed by `jsonElems`/`jsonElemsRest` on a rendered element
list.  One unit per list step, and enough for the deepest element: this
mirrors how the parser threads its fuel. -/
def pfuelElems : List Json → Nat
  | [] => 1
  | e :: es => 1 + max (pfuel e) (pfuelElems es)

/-- Fuel needed by `jsonMembers`/`jsonMembersRest` on a rendered member
list. -/
def pfuelMembers : List (String × Json) → Nat
  | [] => 1
  | (_, v) :: ms => 1 + max (pfuel v) (pfuelMembers ms)

end

/-! ## The shape of the Concat state's output -/

/-- All-space character runs (the separators `States.Format` leaves
between its substituted arguments). -/
def AllSp (g : List Char) : Prop := ∀ c ∈ g, c = ' '


/-- A field name that the serialization embeds verbatim and the parser
reads back verbatim: no quote, no backslash. -/
def plainKey (k : String) : Prop := ∀ c ∈ k.data, c ≠ '"' ∧ c ≠ '\\'


/-- The characters of the `"name": value` text that `passValues` builds
for one present field. -/
def entryChars (k : String) (j : Json) : List Char :=
  '"' :: (k.data ++ '"' :: ':' :: ' ' :: jsonChars j)


/-- What one Map iteration contributes: `none` when the Choice condition
matched (the Null values branch), `some (name, processed value)`
otherwise. -/
abbrev FragSpec := Option (String × Json)


/-- The `valueToConcat` string a fragment contributes. -/
def avSpec : FragSpec → String
  | none => ""
  | some (k, j) => ⟨',' :: entryChars k j⟩


/-- The `value` string a fragment contributes. -/
def nnvSpec : FragSpec → String
  | none => ""
  | some (k, j) => ⟨entryChars k j⟩


/-- Each argument's characters followed by the single space
`States.Format` leaves after the corresponding placeholder. -/
def sj : List String → List Char
  | [] => []
  | a :: as => a.data ++ ' ' :: sj as


/-- The placeholder run contributed by the per-field reduce: `n` copies
of an open brace, a close brace and a space. -/
def phChars : Nat → List Char
  | 0 => []
  | n + 1 => '{' :: '}' :: ' ' :: phChars n


/-- The per-field reduce's format text as a string. -/
def phString : Nat → String
  | 0 => ""
  | n + 1 => "\x7b\x7d " ++ phString n


/-! ## The member-sequence text and its parse -/

/-- The syntactic shape of the concatenated text after the opening slot:
for each fragment in order, an absent fragment contributes nothing and a
present one contributes a comma and its `"name": value` text; space runs
may appear anywhere between fragments, and the text closes with the brace
followed by `post`. -/
inductive MemTail (post : List Char) : List FragSpec → List Char → Prop
  | done : MemTail post [] ('}' :: post)
  | gap {specs s} : MemTail post specs s → MemTail post specs (' ' :: s)
  | absent {specs s} : MemTail post specs s → MemTail post (none :: specs) s
  | present {specs s} (k : String) (j : Json) : plainKey k →
      MemTail post specs s →
      MemTail post (some (k, j) :: specs) (',' :: (entryChars k j ++ s))


/-- Fuel needed by `jsonMembersRest` on a member-sequence text. -/
def specsFuel : List FragSpec → Nat
  | [] => 1
  | none :: specs => specsFuel specs
  | some (_, j) :: specs => 1 + max (pfuel j) (specsFuel specs)


/-- The object the parser accumulates from the present fragments, last
value winning on duplicate keys. -/
def foldSpecs (acc : List (String × Json)) : List FragSpec → List (String × Json)
  | [] => acc
  | none :: specs => foldSpecs acc specs
  | some (k, j) :: specs => foldSpecs (setKey acc k (canon j)) specs


/-- Key well-formedness of a fragment spec. -/
def specKeyOk (sp : FragSpec) : Prop := ∀ k j, sp = some (k, j) → plainKey k


/-- The merged record's value for a declared field: the input's value on
key presence, the field's placeholder otherwise. -/
def mergedValue (uuid : String → String) (input : List (String × Json)) (f : String) : Json :=
  (lookupKey input f).getD (Json.str (uuid f))


/-- Which branch one Map iteration takes, and with what data. -/
def fragSpecOf (dataProcessing : Json → String → Json) (execId : String)
    (it : Item) : FragSpec :=
  if choiceCondition it.value execId then none
  else some (it.propertyName, dataProcessing it.value it.propertyName)


/-! ## The run characterization -/

/-- The branch outcome for a declared field in one run: `none` when the
merged value is the execution-id string (the Choice matched), otherwise
the field paired with its processed value. -/
def fieldSpec (dp : Json → String → Json) (uuid : String → String) (execId : String)
    (input : List (String × Json)) (f : String) : FragSpec :=
  if choiceCondition (mergedValue uuid input f) execId then none
  else some (f, dp (mergedValue uuid input f) f)


/-- Index lookup in an index-keyed fragment table (the re-indexing that
realigns out-of-order Map results with the original item positions). -/
def lookupIdx : List (Nat × Frag) → Nat → Option Frag
  | [], _ => none
  | (i0, fr) :: r, i => if i0 = i then some fr else lookupIdx r i


/-- The Map state's iterations under an arbitrary scheduling.  The work
queue `q` pairs each item with its original index, in any order; each
queue entry is branched independently (the items share no state, lines
149-155, 182-187), and the fragment sequence is then re-indexed to the
original positions, because a Map state's result array is index-aligned
with `itemsPath` whatever the evaluation order (spec-modelled scheduling
contract of the host engine; the repository's code fixes no order).
`none` when some original index has no queue entry. -/
def mapTaskShuffled (dataProcessing : Json → String → Json) (execId : String)
    (n : Nat) (q : List (Nat × Item)) : Option (List Frag) :=
  (List.range n).mapM
    (fun i => lookupIdx (q.map (fun p => (p.1, choiceTask dataProcessing execId p.2))) i)


/-! ## Theorems about the embedded pipeline -/

theorem digitsOfAux_eq (n : Nat) : ∀ fuel acc, n < fuel →
    digitsOfAux fuel n acc = digitsOf n acc := by
  induction n using Nat.strong_induction_on with
  | _ n ih =>
    intro fuel acc hf
    match fuel, hf with
    | fuel + 1, _ =>
      by_cases h10 : n < 10
      · simp [digitsOfAux, digitsOf, h10]
      · have hdiv : n / 10 < n := Nat.div_lt_self (by omega) (by omega)
        simp only [digitsOfAux, digitsOf, if_neg h10]
        rw [ih _ hdiv _ _ (by omega), ih _ hdiv _ _ (by omega)]


/-- The recursion equation for `digitsOf`, fuel eliminated. -/
theorem digitsOf_step (n : Nat) (acc : List Char) :
    digitsOf n acc =
      if n < 10 then digitCh n :: acc else digitsOf (n / 10) (digitCh n :: acc) := by
  by_cases h10 : n < 10
  · simp [digitsOf, digitsOfAux, digitCh, h10]
  · have hdiv : n / 10 < n := Nat.div_lt_self (by omega) (by omega)
    simp only [digitsOf, digitsOfAux, digitCh, if_neg h10]
    exact digitsOfAux_eq _ _ _ (by omega)


theorem digitsOf_acc (n : Nat) : ∀ acc, digitsOf n acc = digitsOf n [] ++ acc := by
  induction n using Nat.strong_induction_on with
  | _ n ih =>
    intro acc
    rw [digitsOf_step, digitsOf_step n []]
    by_cases h10 : n < 10
    · simp [h10]
    · have hdiv : n / 10 < n := Nat.div_lt_self (by omega) (by omega)
      simp only [if_neg h10]
      rw [ih _ hdiv [digitCh n], ih _ hdiv (digitCh n :: acc)]
      simp


/-- Last-digit-first unfolding of `digitsOf`. -/
theorem digitsOf_snoc (n : Nat) :
    digitsOf n [] = (if n < 10 then [] else digitsOf (n / 10) []) ++ [digitCh n] := by
  rw [digitsOf_step]
  by_cases h10 : n < 10
  · simp [h10]
  · simp only [if_neg h10]
    exact digitsOf_acc _ _


theorem digitsOf_ne_nil (n : Nat) : digitsOf n [] ≠ [] := by
  rw [digitsOf_snoc]; simp


theorem digitCh_isDigit (n : Nat) : isDigitCh (digitCh n) = true := by
  have h : n % 10 < 10 := Nat.mod_lt _ (by omega)
  unfold digitCh
  interval_cases h' : n % 10 <;> decide


theorem digitCh_toNat (n : Nat) : (digitCh n).toNat = 48 + n % 10 := by
  have h : n % 10 < 10 := Nat.mod_lt _ (by omega)
  unfold digitCh
  interval_cases h' : n % 10 <;> decide


theorem digitsOf_all_digits (n : Nat) : ∀ c ∈ digitsOf n [], isDigitCh c = true := by
  induction n using Nat.strong_induction_on with
  | _ n ih =>
    rw [digitsOf_snoc]
    intro c hc
    rcases List.mem_append.mp hc with h | h
    · by_cases h10 : n < 10
      · simp [h10] at h
      · have hdiv : n / 10 < n := Nat.div_lt_self (by omega) (by omega)
        exact ih _ hdiv c (by simpa [h10] using h)
    · rw [List.mem_singleton] at h
      subst h
      exact digitCh_isDigit n


theorem digitsVal_digitsOf (n : Nat) : digitsVal (digitsOf n []) = n := by
  induction n using Nat.strong_induction_on with
  | _ n ih =>
    rw [digitsOf_snoc]
    unfold digitsVal
    rw [List.foldl_append]
    by_cases h10 : n < 10
    · simp [h10, digitCh_toNat]
    · have hdiv : n / 10 < n := Nat.div_lt_self (by omega) (by omega)
      simp only [if_neg h10, List.foldl_cons, List.foldl_nil]
      have := ih _ hdiv
      unfold digitsVal at this
      rw [this, digitCh_toNat]
      omega


theorem grabDigits_stop {cs : List Char} (h : headIsDigit cs = false) :
    grabDigits cs = ([], cs) := by
  match cs with
  | [] => rfl
  | c :: t =>
    simp only [headIsDigit] at h
    simp [grabDigits, h]


theorem grabDigits_run {ds : List Char} (hds : ∀ c ∈ ds, isDigitCh c = true)
    {rest : List Char} (hrest : headIsDigit rest = false) :
    grabDigits (ds ++ rest) = (ds, rest) := by
  induction ds with
  | nil => simpa using grabDigits_stop hrest
  | cons c t ih =>
    have hc : isDigitCh c = true := hds c (by simp)
    have ht := ih (fun x hx => hds x (by simp [hx]))
    simp [grabDigits, hc, ht]


theorem minus_not_digit : isDigitCh '-' = false := by decide


/-- The integer codec round trip: `numToken` inverts `intChars` whenever
the remainder does not start with a digit. -/
theorem numToken_intChars (i : Int) {rest : List Char}
    (hrest : headIsDigit rest = false) :
    numToken (intChars i ++ rest) = some (i, rest) := by
  obtain ⟨c, t, hct, hcd⟩ : ∃ c t, digitsOf i.natAbs [] = c :: t ∧ isDigitCh c = true := by
    match hd : digitsOf i.natAbs [], digitsOf_ne_nil i.natAbs with
    | c :: t, _ => exact ⟨c, t, rfl, digitsOf_all_digits _ c (hd ▸ List.mem_cons_self ..)⟩
  have hcm : c ≠ '-' := by
    intro h
    rw [h] at hcd
    exact absurd hcd (by decide)
  have hgrab : grabDigits (c :: (t ++ rest)) = (c :: t, rest) := by
    have := @grabDigits_run (digitsOf i.natAbs []) (digitsOf_all_digits i.natAbs) rest hrest
    rwa [hct, List.cons_append] at this
  have hval : digitsVal (c :: t) = i.natAbs := by
    have := digitsVal_digitsOf i.natAbs
    rwa [hct] at this
  by_cases hneg : i < 0
  · have h1 : intChars i ++ rest = '-' :: (c :: (t ++ rest)) := by
      simp [intChars, hneg, hct]
    rw [h1]
    show (match grabDigits (c :: (t ++ rest)) with
      | ([], _) => none
      | (ds, r) => some (-(digitsVal ds : Int), r)) = some (i, rest)
    rw [hgrab]
    simp only [hval]
    have h2 : -(i.natAbs : Int) = i := by omega
    rw [h2]
  · have h1 : intChars i ++ rest = c :: (t ++ rest) := by
      simp [intChars, hneg, hct]
    rw [h1]
    rw [numToken.eq_def]
    split
    · rename_i heq
      exact absurd (List.cons.inj heq).1 hcm
    · rw [hgrab]
      show some ((digitsVal (c :: t) : Int), rest) = some (i, rest)
      rw [hval]
      have h2 : (i.natAbs : Int) = i := by omega
      rw [h2]


/-! ## String bodies: the escape round trip -/

theorem strBody_esc (cs : List Char) : ∀ rest : List Char,
    strBody (escStr cs ++ '"' :: rest) = some (cs, rest) := by
  induction cs with
  | nil => intro rest; rfl
  | cons c cs ih =>
    intro rest
    have hstep : escStr (c :: cs) ++ '"' :: rest =
        escChar c ++ (escStr cs ++ '"' :: rest) := by
      simp [escStr]
    rw [hstep]
    by_cases h1 : c = '"'
    · subst h1; simp [escChar, strBody, unescCh, ih]
    by_cases h2 : c = '\\'
    · subst h2; simp [escChar, h1, strBody, unescCh, ih]
    by_cases h3 : c = '\n'
    · subst h3; simp [escChar, h1, h2, strBody, unescCh, ih]
    by_cases h4 : c = '\t'
    · subst h4; simp [escChar, h1, h2, h3, strBody, unescCh, ih]
    by_cases h5 : c = '\r'
    · subst h5; simp [escChar, h1, h2, h3, h4, strBody, unescCh, ih]
    · have hplain : escChar c = [c] := by simp [escChar, h1, h2, h3, h4, h5]
      rw [hplain]
      rw [List.cons_append, List.nil_append, strBody.eq_def]
      split
      · rename_i heq
        exact absurd heq (by simp)
      · rename_i r heq
        exact absurd (List.cons.inj heq).1 h1
      · rename_i e r heq
        exact absurd (List.cons.inj heq).1 h2
      · rename_i c2 r hne1 hne2 heq
        obtain ⟨h1eq, h2eq⟩ := List.cons.inj heq
        rw [← h2eq, ih]
        rw [← h1eq]


/-! ## Whitespace and head-character facts -/

theorem dropSpaces_cons {c : Char} (h : isSpaceCh c = false) (cs : List Char) :
    dropSpaces (c :: cs) = c :: cs := by
  simp [dropSpaces, h]


theorem dropSpaces_spaces {sp : List Char} (h : ∀ c ∈ sp, isSpaceCh c = true) :
    ∀ cs, dropSpaces (sp ++ cs) = dropSpaces cs := by
  induction sp with
  | nil => intro cs; rfl
  | cons c t ih =>
    intro cs
    have hc : isSpaceCh c = true := h c (by simp)
    simp only [List.cons_append, dropSpaces, hc, if_pos]
    exact ih (fun x hx => h x (by simp [hx])) cs


theorem digit_head_facts {c : Char} (h : isDigitCh c = true) :
    c ≠ 'n' ∧ c ≠ 't' ∧ c ≠ 'f' ∧ c ≠ '"' ∧ c ≠ '[' ∧ c ≠ '{' ∧
      isSpaceCh c = false ∧ c ≠ ']' ∧ c ≠ '}' ∧ c ≠ ',' := by
  have hne : ∀ d : Char, isDigitCh d = false → c ≠ d := by
    intro d hd hcd
    rw [hcd] at h
    rw [h] at hd
    exact absurd hd (by simp)
  refine ⟨hne 'n' (by decide), hne 't' (by decide), hne 'f' (by decide),
    hne '"' (by decide), hne '[' (by decide), hne '\x7b' (by decide), ?_,
    hne ']' (by decide), hne '\x7d' (by decide), hne ',' (by decide)⟩
  have h1 := hne ' ' (by decide)
  have h2 := hne '\n' (by decide)
  have h3 := hne '\t' (by decide)
  have h4 := hne '\r' (by decide)
  simp [isSpaceCh, h1, h2, h3, h4]


theorem intChars_head (i : Int) :
    ∃ c t, intChars i = c :: t ∧ (c = '-' ∨ isDigitCh c = true) := by
  by_cases hneg : i < 0
  · exact ⟨'-', digitsOf i.natAbs [], by simp [intChars, hneg], Or.inl rfl⟩
  · match hd : digitsOf i.natAbs [], digitsOf_ne_nil i.natAbs with
    | c :: t, _ =>
      refine ⟨c, t, by simp [intChars, hneg, hd], Or.inr ?_⟩
      exact digitsOf_all_digits _ c (hd ▸ List.mem_cons_self ..)


/-- Every serialized value starts with a character that is no whitespace
and no closing delimiter. -/
theorem jsonChars_head (j : Json) :
    ∃ c t, jsonChars j = c :: t ∧ isSpaceCh c = false ∧ c ≠ ']' ∧ c ≠ '}' := by
  cases j with
  | num i =>
    obtain ⟨c, t, hct, hc⟩ := intChars_head i
    refine ⟨c, t, by simp [jsonChars, hct], ?_, ?_, ?_⟩
    · rcases hc with rfl | hd
      · decide
      · exact (digit_head_facts hd).2.2.2.2.2.2.1
    · rcases hc with rfl | hd
      · decide
      · exact (digit_head_facts hd).2.2.2.2.2.2.2.1
    · rcases hc with rfl | hd
      · decide
      · exact (digit_head_facts hd).2.2.2.2.2.2.2.2.1
  | bool b =>
    cases b with
    | false => refine ⟨'f', _, rfl, ?_, ?_, ?_⟩ <;> decide
    | true => refine ⟨'t', _, rfl, ?_, ?_, ?_⟩ <;> decide
  | null => refine ⟨'n', _, rfl, ?_, ?_, ?_⟩ <;> decide
  | str s => refine ⟨'"', _, rfl, ?_, ?_, ?_⟩ <;> decide
  | arr es => refine ⟨'[', _, rfl, ?_, ?_, ?_⟩ <;> decide
  | obj ms => refine ⟨'{', _, rfl, ?_, ?_, ?_⟩ <;> decide


theorem dropSpaces_jsonChars (j : Json) (rest : List Char) :
    dropSpaces (jsonChars j ++ rest) = jsonChars j ++ rest := by
  obtain ⟨c, t, hct, hsp, -, -⟩ := jsonChars_head j
  rw [hct, List.cons_append, dropSpaces_cons hsp]


theorem pfuel_pos (j : Json) : 1 ≤ pfuel j := by
  cases j <;> simp [pfuel]


theorem pfuelElems_pos (es : List Json) : 1 ≤ pfuelElems es := by
  cases es with
  | nil => simp [pfuelElems]
  | cons e es => simp only [pfuelElems]; omega


theorem pfuelMembers_pos (ms : List (String × Json)) : 1 ≤ pfuelMembers ms := by
  cases ms with
  | nil => simp [pfuelMembers]
  | cons m ms => obtain ⟨k, v⟩ := m; simp only [pfuelMembers]; omega


/-! ## Delimiter and whitespace facts about rendered lists -/

theorem intChars_head_facts (i : Int) :
    ∃ c t, intChars i = c :: t ∧ c ≠ 'n' ∧ c ≠ 't' ∧ c ≠ 'f' ∧ c ≠ '"' ∧
      c ≠ '[' ∧ c ≠ '{' ∧ isSpaceCh c = false := by
  obtain ⟨c, t, hct, hc⟩ := intChars_head i
  rcases hc with rfl | hd
  · exact ⟨'-', t, hct, by decide, by decide, by decide, by decide, by decide,
      by decide, by decide⟩
  · obtain ⟨g1, g2, g3, g4, g5, g6, g7, -⟩ := digit_head_facts hd
    exact ⟨c, t, hct, g1, g2, g3, g4, g5, g6, g7⟩


theorem elemTail_nodigit (es : List Json) (rest : List Char) :
    headIsDigit (elemTailChars es ++ ']' :: rest) = false := by
  cases es with
  | nil => rfl
  | cons e es => rfl


theorem memberTail_nodigit (ms : List (String × Json)) (rest : List Char) :
    headIsDigit (memberTailChars ms ++ '}' :: rest) = false := by
  cases ms with
  | nil => rfl
  | cons m ms => obtain ⟨k, v⟩ := m; rfl


theorem dropSpaces_elemChars (es : List Json) (rest : List Char) :
    dropSpaces (elemChars es ++ ']' :: rest) = elemChars es ++ ']' :: rest := by
  cases es with
  | nil => rfl
  | cons e es =>
    have hassoc : elemChars (e :: es) ++ ']' :: rest =
        jsonChars e ++ (elemTailChars es ++ ']' :: rest) := by
      simp [elemChars]
    rw [hassoc, dropSpaces_jsonChars]


theorem dropSpaces_memberChars (ms : List (String × Json)) (rest : List Char) :
    dropSpaces (memberChars ms ++ '}' :: rest) = memberChars ms ++ '}' :: rest := by
  cases ms with
  | nil => rfl
  | cons m ms =>
    obtain ⟨k, v⟩ := m
    have hassoc : memberChars ((k, v) :: ms) ++ '}' :: rest =
        '"' :: ((escStr k.data ++ '"' :: ':' :: (jsonChars v ++ memberTailChars ms)) ++
          '}' :: rest) := by
      simp [memberChars]
    rw [hassoc, dropSpaces_cons (by decide)]


/-! ## The value codec round trip

Parsing the rendering of a value recovers its canonical form, whatever
well-delimited input follows. -/

mutual

theorem jsonValue_rt : ∀ (fuel : Nat) (j : Json) (rest : List Char),
    pfuel j ≤ fuel → headIsDigit rest = false →
    jsonValue fuel (jsonChars j ++ rest) = some (canon j, rest)
  | 0, j, _, hf, _ => by
    have := pfuel_pos j
    omega
  | fuel + 1, j, rest, hf, hr => by
    cases j with
    | null => rfl
    | bool b => cases b <;> rfl
    | str s =>
      have hassoc : jsonChars (Json.str s) ++ rest =
          '"' :: (escStr s.data ++ '"' :: rest) := by
        simp [jsonChars]
      rw [hassoc]
      show (match strBody (escStr s.data ++ '"' :: rest) with
        | some p => some (Json.str ⟨p.1⟩, p.2)
        | none => none) = some (canon (Json.str s), rest)
      rw [strBody_esc]
      rfl
    | num i =>
      obtain ⟨c, t, hct, g1, g2, g3, g4, g5, g6, g7⟩ := intChars_head_facts i
      have hassoc : jsonChars (Json.num i) ++ rest = c :: (t ++ rest) := by
        simp [jsonChars, hct]
      rw [hassoc]
      simp only [jsonValue]
      rw [dropSpaces_cons g7]
      split
      · rename_i heq; exact absurd (List.cons.inj heq).1 g1
      · rename_i heq; exact absurd (List.cons.inj heq).1 g2
      · rename_i heq; exact absurd (List.cons.inj heq).1 g3
      · rename_i heq; exact absurd (List.cons.inj heq).1 g4
      · rename_i heq; exact absurd (List.cons.inj heq).1 g5
      · rename_i heq; exact absurd (List.cons.inj heq).1 g6
      · rw [← List.cons_append, ← hct, numToken_intChars i hr]
        rfl
    | arr es =>
      have hassoc : jsonChars (Json.arr es) ++ rest =
          '[' :: (elemChars es ++ ']' :: rest) := by
        simp [jsonChars]
      rw [hassoc]
      show jsonElems fuel (dropSpaces (elemChars es ++ ']' :: rest)) =
        some (canon (Json.arr es), rest)
      rw [dropSpaces_elemChars]
      rw [jsonElems_rt fuel es rest (by simp only [pfuel] at hf; omega)]
      rfl
    | obj ms =>
      have hassoc : jsonChars (Json.obj ms) ++ rest =
          '{' :: (memberChars ms ++ '}' :: rest) := by
        simp [jsonChars]
      rw [hassoc]
      show jsonMembers fuel (dropSpaces (memberChars ms ++ '}' :: rest)) =
        some (canon (Json.obj ms), rest)
      rw [dropSpaces_memberChars]
      rw [jsonMembers_rt fuel ms rest (by simp only [pfuel] at hf; omega)]
      rfl

theorem jsonElems_rt : ∀ (fuel : Nat) (es : List Json) (rest : List Char),
    pfuelElems es ≤ fuel →
    jsonElems fuel (elemChars es ++ ']' :: rest) = some (Json.arr (canonList es), rest)
  | 0, es, _, hf => by
    have := pfuelElems_pos es
    omega
  | fuel + 1, es, rest, hf => by
    cases es with
    | nil => rfl
    | cons e es =>
      have hassoc : elemChars (e :: es) ++ ']' :: rest =
          jsonChars e ++ (elemTailChars es ++ ']' :: rest) := by
        simp [elemChars]
      rw [hassoc]
      obtain ⟨c, t, hct, -, hne, -⟩ := jsonChars_head e
      simp only [jsonElems]
      split
      · rename_i heq
        rw [hct, List.cons_append] at heq
        exact absurd (List.cons.inj heq).1 hne
      · simp only [pfuelElems] at hf
        rw [jsonValue_rt fuel e _ (by omega) (elemTail_nodigit es rest)]
        show jsonElemsRest fuel [canon e] (elemTailChars es ++ ']' :: rest) = _
        rw [jsonElemsRest_rt fuel es [canon e] rest (by omega)]
        simp [canonList]

theorem jsonElemsRest_rt : ∀ (fuel : Nat) (es : List Json) (acc : List Json)
    (rest : List Char), pfuelElems es ≤ fuel →
    jsonElemsRest fuel acc (elemTailChars es ++ ']' :: rest) =
      some (Json.arr (acc.reverse ++ canonList es), rest)
  | 0, es, _, _, hf => by
    have := pfuelElems_pos es
    omega
  | fuel + 1, es, acc, rest, hf => by
    cases es with
    | nil =>
      show some (Json.arr acc.reverse, rest) =
        some (Json.arr (acc.reverse ++ canonList []), rest)
      simp [canonList]
    | cons e es =>
      have hassoc : elemTailChars (e :: es) ++ ']' :: rest =
          ',' :: (jsonChars e ++ (elemTailChars es ++ ']' :: rest)) := by
        simp [elemTailChars]
      rw [hassoc]
      show (match jsonValue fuel (jsonChars e ++ (elemTailChars es ++ ']' :: rest)) with
        | some p => jsonElemsRest fuel (p.1 :: acc) p.2
        | none => none) = _
      simp only [pfuelElems] at hf
      rw [jsonValue_rt fuel e _ (by omega) (elemTail_nodigit es rest)]
      show jsonElemsRest fuel (canon e :: acc) (elemTailChars es ++ ']' :: rest) = _
      rw [jsonElemsRest_rt fuel es (canon e :: acc) rest (by omega)]
      simp [canonList]

theorem jsonMembers_rt : ∀ (fuel : Nat) (ms : List (String × Json)) (rest : List Char),
    pfuelMembers ms ≤ fuel →
    jsonMembers fuel (memberChars ms ++ '}' :: rest) =
      some (Json.obj (canonMembers [] ms), rest)
  | 0, ms, _, hf => by
    have := pfuelMembers_pos ms
    omega
  | fuel + 1, ms, rest, hf => by
    cases ms with
    | nil => rfl
    | cons m ms =>
      obtain ⟨k, v⟩ := m
      have hassoc : memberChars ((k, v) :: ms) ++ '}' :: rest =
          '"' :: (escStr k.data ++ '"' ::
            (':' :: (jsonChars v ++ (memberTailChars ms ++ '}' :: rest)))) := by
        simp [memberChars]
      rw [hassoc]
      show (match strBody (escStr k.data ++ '"' ::
          (':' :: (jsonChars v ++ (memberTailChars ms ++ '}' :: rest)))) with
        | some kp =>
          match dropSpaces kp.2 with
          | ':' :: r2 =>
            match jsonValue fuel r2 with
            | some vp => jsonMembersRest fuel (setKey [] ⟨kp.1⟩ vp.1) vp.2
            | none => none
          | _ => none
        | none => none) = _
      rw [strBody_esc]
      show (match jsonValue fuel (jsonChars v ++ (memberTailChars ms ++ '}' :: rest)) with
        | some vp => jsonMembersRest fuel (setKey [] ⟨k.data⟩ vp.1) vp.2
        | none => none) = _
      simp only [pfuelMembers] at hf
      rw [jsonValue_rt fuel v _ (by omega) (memberTail_nodigit ms rest)]
      show jsonMembersRest fuel (setKey [] k (canon v))
        (memberTailChars ms ++ '}' :: rest) = _
      rw [jsonMembersRest_rt fuel ms (setKey [] k (canon v)) rest (by omega)]
      rfl

theorem jsonMembersRest_rt : ∀ (fuel : Nat) (ms : List (String × Json))
    (acc : List (String × Json)) (rest : List Char), pfuelMembers ms ≤ fuel →
    jsonMembersRest fuel acc (memberTailChars ms ++ '}' :: rest) =
      some (Json.obj (canonMembers acc ms), rest)
  | 0, ms, _, _, hf => by
    have := pfuelMembers_pos ms
    omega
  | fuel + 1, ms, acc, rest, hf => by
    cases ms with
    | nil => rfl
    | cons m ms =>
      obtain ⟨k, v⟩ := m
      have hassoc : memberTailChars ((k, v) :: ms) ++ '}' :: rest =
          ',' :: '"' :: (escStr k.data ++ '"' ::
            (':' :: (jsonChars v ++ (memberTailChars ms ++ '}' :: rest)))) := by
        simp [memberTailChars]
      rw [hassoc]
      show (match strBody (escStr k.data ++ '"' ::
          (':' :: (jsonChars v ++ (memberTailChars ms ++ '}' :: rest)))) with
        | some kp =>
          match dropSpaces kp.2 with
          | ':' :: r2 =>
            match jsonValue fuel r2 with
            | some vp => jsonMembersRest fuel (setKey acc ⟨kp.1⟩ vp.1) vp.2
            | none => none
          | _ => none
        | none => none) = _
      rw [strBody_esc]
      show (match jsonValue fuel (jsonChars v ++ (memberTailChars ms ++ '}' :: rest)) with
        | some vp => jsonMembersRest fuel (setKey acc ⟨k.data⟩ vp.1) vp.2
        | none => none) = _
      simp only [pfuelMembers] at hf
      rw [jsonValue_rt fuel v _ (by omega) (memberTail_nodigit ms rest)]
      show jsonMembersRest fuel (setKey acc k (canon v))
        (memberTailChars ms ++ '}' :: rest) = _
      rw [jsonMembersRest_rt fuel ms (setKey acc k (canon v)) rest (by omega)]
      rfl

end

theorem passValues_frag (k : String) (v : Json) :
    passValues (Item.mk k v) =
      Frag.mk ⟨',' :: entryChars k v⟩ ⟨entryChars k v⟩ := by
  unfold passValues statesFormat entryChars jsonToString
  simp [statesFormatAux]


theorem sj_append (as bs : List String) : sj (as ++ bs) = sj as ++ sj bs := by
  induction as with
  | nil => rfl
  | cons a as ih => simp [sj, ih]


theorem phString_data (n : Nat) : (phString n).data = phChars n := by
  induction n with
  | zero => rfl
  | succ n ih =>
    show (("\x7b\x7d " : String) ++ phString n).data = _
    rw [String.data_append, ih]
    rfl


theorem foldl_ph (l : List String) : ∀ s : String,
    l.foldl (fun s _ => s ++ "\x7b\x7d ") s = s ++ phString l.length := by
  induction l with
  | nil =>
    intro s
    show s = s ++ ""
    simp
  | cons a l ih =>
    intro s
    show l.foldl _ (s ++ "\x7b\x7d ") = s ++ phString (l.length + 1)
    rw [ih (s ++ "\x7b\x7d ")]
    have : phString (l.length + 1) = "\x7b\x7d " ++ phString l.length := rfl
    rw [this, String.append_assoc]


theorem concatFormatString_data (req opt : List String) :
    (concatFormatString req opt).data =
      ' ' :: (phChars (declaredFields req opt).length ++
        (' ' :: '{' :: '}' :: ' ' :: '{' :: '}' :: ' ' :: '{' :: '}' :: [])) := by
  unfold concatFormatString concatFormatPrefix
  rw [foldl_ph]
  rw [String.data_append, String.data_append, phString_data]
  rfl


theorem sfa_ph : ∀ (args more : List String) (tail : List Char),
    statesFormatAux (phChars args.length ++ tail) (args ++ more) =
      sj args ++ statesFormatAux tail more
  | [], more, tail => rfl
  | a :: args, more, tail => by
    show statesFormatAux ('{' :: '}' :: ' ' :: (phChars args.length ++ tail))
      (a :: (args ++ more)) = _
    show a.data ++ (' ' :: statesFormatAux (phChars args.length ++ tail) (args ++ more)) = _
    rw [sfa_ph args more tail]
    simp [sj]


theorem sfa_tail3 (x y z : String) (more : List String) :
    statesFormatAux
      (' ' :: '{' :: '}' :: ' ' :: '{' :: '}' :: ' ' :: '{' :: '}' :: [])
      (x :: y :: z :: more) =
      ' ' :: (x.data ++ (' ' :: (y.data ++ (' ' :: z.data)))) := by
  show ' ' :: (x.data ++ (' ' :: (y.data ++ (' ' :: (z.data ++ statesFormatAux [] more))))) = _
  simp [statesFormatAux]


/-- A helper: any list of length at least two splits off its last two
elements. -/
theorem list_two_split {α : Type} : ∀ (rest : List α) (x y : α),
    ∃ front p q, x :: y :: rest = front ++ [p, q]
  | [], x, y => ⟨[], x, y, rfl⟩
  | z :: rest, x, y => by
    obtain ⟨front, p, q, h⟩ := list_two_split rest y z
    exact ⟨x :: front, p, q, by rw [List.cons_append, ← h]⟩


theorem sfa_space (cs : List Char) (args : List String) :
    statesFormatAux (' ' :: cs) args = ' ' :: statesFormatAux cs args := rfl


/-- The Concat output's character-level shape: an opening space, the
opening brace, a space run, the `notNullValues[0]` text, and all the
`allValues` texts space-separated, closed by the brace.  (The two
placeholder runs of the format string meet in a double space whose
position depends on the field count, hence the existentials.) -/
theorem concatText_shape (req opt : List String) (v0 : String) (avs : List String)
    (hlen : avs.length = (declaredFields req opt).length) (hpos : 1 ≤ avs.length) :
    ∃ sp1 gapM, AllSp sp1 ∧ AllSp gapM ∧
      (statesFormat (concatFormatString req opt) ("\x7b" :: v0 :: (avs ++ ["\x7d"]))).data =
        ' ' :: '{' :: (sp1 ++ (v0.data ++ (' ' ::
          (sj (avs.take (avs.length - 2)) ++
            (gapM ++ (sj (avs.drop (avs.length - 2)) ++ ['\x7d'])))))) := by
  have hdata : (statesFormat (concatFormatString req opt)
      ("\x7b" :: v0 :: (avs ++ ["\x7d"]))).data =
      statesFormatAux (concatFormatString req opt).data
        ("\x7b" :: v0 :: (avs ++ ["\x7d"])) := rfl
  rw [hdata, concatFormatString_data, ← hlen]
  match avs, hpos with
  | [a], _ =>
    refine ⟨[' ', ' '], [], ?_, ?_, ?_⟩
    · intro c hc; simp at hc; simp [hc]
    · intro c hc; simp at hc
    · rw [sfa_space]
      have h0 : ("\x7b" :: v0 :: ([a] ++ ["\x7d"])) =
          ((["\x7b"] : List String) ++ (v0 :: a :: ["\x7d"])) := rfl
      have h1 : ([a] : List String).length = (["\x7b"] : List String).length := rfl
      rw [h0, h1, sfa_ph ["\x7b"] (v0 :: a :: ["\x7d"]) _, sfa_tail3]
      simp [sj]
  | x :: y :: rest, _ =>
    obtain ⟨front, p, q, hfr⟩ := list_two_split rest x y
    rw [hfr]
    refine ⟨[' '], [' '], ?_, ?_, ?_⟩
    · intro c hc; simp at hc; simp [hc]
    · intro c hc; simp at hc; simp [hc]
    · have htake : (front ++ [p, q]).take ((front ++ [p, q]).length - 2) = front := by
        have h2 : (front ++ [p, q]).length - 2 = front.length := by simp
        rw [h2]
        exact List.take_left front [p, q]
      have hdrop : (front ++ [p, q]).drop ((front ++ [p, q]).length - 2) = [p, q] := by
        have h2 : (front ++ [p, q]).length - 2 = front.length := by simp
        rw [h2]
        exact List.drop_left front [p, q]
      rw [htake, hdrop]
      have hsplit : ("\x7b" :: v0 :: ((front ++ [p, q]) ++ ["\x7d"])) =
          (("\x7b" :: v0 :: front) ++ (p :: q :: ["\x7d"])) := by
        simp
      have hlen2 : (front ++ [p, q]).length = ("\x7b" :: v0 :: front : List String).length := by
        simp
      rw [hsplit, hlen2, sfa_space, sfa_ph ("\x7b" :: v0 :: front) (p :: q :: ["\x7d"]) _,
        sfa_tail3]
      simp [sj]


/-! ## Fuel is covered by rendered length -/

theorem jsonChars_length_pos (j : Json) : 1 ≤ (jsonChars j).length := by
  obtain ⟨c, t, hct, -⟩ := jsonChars_head j
  rw [hct]
  simp


theorem intChars_length_pos (i : Int) : 1 ≤ (intChars i).length := by
  obtain ⟨c, t, hct, -⟩ := intChars_head i
  rw [hct]
  simp


mutual

theorem pfuel_le : ∀ j : Json, pfuel j ≤ (jsonChars j).length
  | Json.null => by simp [pfuel, jsonChars]
  | Json.bool b => by cases b <;> simp [pfuel, jsonChars]
  | Json.num i => by
    have := intChars_length_pos i
    simp only [pfuel, jsonChars]
    omega
  | Json.str s => by simp [pfuel, jsonChars]
  | Json.arr es => by
    have h := pfuelElems_le_head es
    simp only [pfuel, jsonChars]
    simp only [List.length_cons, List.length_append, List.length_singleton]
    omega
  | Json.obj ms => by
    have h := pfuelMembers_le_head ms
    simp only [pfuel, jsonChars]
    simp only [List.length_cons, List.length_append, List.length_singleton]
    omega

theorem pfuelElems_le_head : ∀ es : List Json,
    pfuelElems es ≤ (elemChars es).length + 1
  | [] => by simp [pfuelElems, elemChars]
  | e :: es => by
    have h1 := pfuel_le e
    have h2 := pfuelElems_le_tail es
    have h3 := jsonChars_length_pos e
    simp only [pfuelElems, elemChars, List.length_append]
    omega

theorem pfuelElems_le_tail : ∀ es : List Json,
    pfuelElems es ≤ (elemTailChars es).length + 1
  | [] => by simp [pfuelElems, elemTailChars]
  | e :: es => by
    have h1 := pfuel_le e
    have h2 := pfuelElems_le_tail es
    simp only [pfuelElems, elemTailChars, List.length_cons, List.length_append]
    omega

theorem pfuelMembers_le_head : ∀ ms : List (String × Json),
    pfuelMembers ms ≤ (memberChars ms).length + 1
  | [] => by simp [pfuelMembers, memberChars]
  | (k, v) :: ms => by
    have h1 := pfuel_le v
    have h2 := pfuelMembers_le_tail ms
    simp only [pfuelMembers, memberChars, List.length_cons, List.length_append]
    omega

theorem pfuelMembers_le_tail : ∀ ms : List (String × Json),
    pfuelMembers ms ≤ (memberTailChars ms).length + 1
  | [] => by simp [pfuelMembers, memberTailChars]
  | (k, v) :: ms => by
    have h1 := pfuel_le v
    have h2 := pfuelMembers_le_tail ms
    simp only [pfuelMembers, memberTailChars, List.length_cons, List.length_append]
    omega

end

theorem memTail_nodigit {post : List Char} {specs : List FragSpec} {s : List Char}
    (h : MemTail post specs s) : headIsDigit s = false := by
  induction h with
  | done => rfl
  | gap _ _ => rfl
  | absent _ ih => exact ih
  | present k j _ _ _ => rfl


theorem memTail_fuel {post : List Char} {specs : List FragSpec} {s : List Char}
    (h : MemTail post specs s) : specsFuel specs ≤ s.length + 1 := by
  induction h with
  | done => simp [specsFuel]
  | gap _ ih => simp only [List.length_cons]; omega
  | absent _ ih => simpa [specsFuel] using ih
  | present k j hk hmt ih =>
    have h1 := pfuel_le j
    have h2 : (entryChars k j).length = k.data.length + (jsonChars j).length + 4 := by
      simp only [entryChars, List.length_cons, List.length_append]
      omega
    simp only [specsFuel, List.length_cons, List.length_append, h2]
    omega


theorem strBody_plain (cs : List Char) (h : ∀ c ∈ cs, c ≠ '"' ∧ c ≠ '\\') :
    ∀ rest : List Char, strBody (cs ++ '"' :: rest) = some (cs, rest) := by
  induction cs with
  | nil => intro rest; rfl
  | cons c cs ih =>
    intro rest
    obtain ⟨h1, h2⟩ := h c (by simp)
    rw [List.cons_append, strBody.eq_def]
    split
    · rename_i heq
      exact absurd heq (by simp)
    · rename_i r heq
      exact absurd (List.cons.inj heq).1 h1
    · rename_i e r heq
      exact absurd (List.cons.inj heq).1 h2
    · rename_i c2 r hne1 hne2 heq
      obtain ⟨h1eq, h2eq⟩ := List.cons.inj heq
      rw [← h2eq, ih (fun x hx => h x (by simp [hx]))]
      rw [← h1eq]


theorem jsonValue_space (fuel : Nat) (cs : List Char) :
    jsonValue fuel (' ' :: cs) = jsonValue fuel cs := by
  cases fuel <;> rfl


theorem jsonMembersRest_space (fuel : Nat) (acc : List (String × Json)) (cs : List Char) :
    jsonMembersRest fuel acc (' ' :: cs) = jsonMembersRest fuel acc cs := by
  cases fuel <;> rfl


/-- Parsing a member-sequence text accumulates exactly the present
fragments over the accumulator, and stops at the closing brace. -/
theorem jsonMembersRest_memTail {post : List Char} {specs : List FragSpec}
    {s : List Char} (hmt : MemTail post specs s) :
    ∀ (fuel : Nat) (acc : List (String × Json)), specsFuel specs ≤ fuel →
      jsonMembersRest fuel acc s = some (Json.obj (foldSpecs acc specs), post) := by
  induction hmt with
  | done =>
    intro fuel acc hf
    simp only [specsFuel] at hf
    match fuel, hf with
    | 0, h => exact absurd h (by omega)
    | g + 1, _ => rfl
  | gap hmt ih =>
    intro fuel acc hf
    rw [jsonMembersRest_space]
    exact ih fuel acc hf
  | absent hmt ih =>
    intro fuel acc hf
    simp only [specsFuel] at hf
    simpa [foldSpecs] using ih fuel acc hf
  | present k j hk hmt ih =>
    rename_i specs2 s2
    intro fuel acc hf
    simp only [specsFuel] at hf
    match fuel, hf with
    | 0, h => exact absurd h (by omega)
    | g + 1, hf =>
      have hentry : (',' :: (entryChars k j ++ s2)) =
          ',' :: '"' :: (k.data ++ ('"' :: ':' :: ' ' :: (jsonChars j ++ s2))) := by
        simp [entryChars]
      rw [hentry]
      have hstep : jsonMembersRest (g + 1) acc
          (',' :: '"' :: (k.data ++ ('"' :: ':' :: ' ' :: (jsonChars j ++ s2)))) =
          (match strBody (k.data ++ ('"' :: ':' :: ' ' :: (jsonChars j ++ s2))) with
          | some kp =>
            match dropSpaces kp.2 with
            | ':' :: r2 =>
              match jsonValue g r2 with
              | some vp => jsonMembersRest g (setKey acc ⟨kp.1⟩ vp.1) vp.2
              | none => none
            | _ => none
          | none => none) := rfl
      rw [hstep, strBody_plain k.data hk (':' :: ' ' :: (jsonChars j ++ s2))]
      have hval : jsonValue g (' ' :: (jsonChars j ++ s2)) = some (canon j, s2) := by
        rw [jsonValue_space]
        exact jsonValue_rt g j s2 (by omega) (memTail_nodigit hmt)
      show (match jsonValue g (' ' :: (jsonChars j ++ s2)) with
        | some vp => jsonMembersRest g (setKey acc ⟨k.data⟩ vp.1) vp.2
        | none => none) = _
      rw [hval]
      show jsonMembersRest g (setKey acc k (canon j)) s2 = _
      rw [ih g (setKey acc k (canon j)) (by omega)]
      rfl


theorem allSp_isSpace {sp : List Char} (h : AllSp sp) : ∀ c ∈ sp, isSpaceCh c = true := by
  intro c hc
  rw [h c hc]
  rfl


theorem memTail_allAbsent {post : List Char} {specs : List FragSpec} {s : List Char}
    (hmt : MemTail post specs s) (hall : ∀ sp ∈ specs, sp = none) :
    dropSpaces s = '}' :: post := by
  induction hmt with
  | done => rfl
  | gap _ ih => exact ih hall
  | absent _ ih => exact ih (fun sp hsp => hall sp (by simp [hsp]))
  | present k j _ _ _ =>
    exact absurd (hall (some (k, j)) (by simp)) (by simp)


theorem memTail_firstPresent {post : List Char} {specs : List FragSpec} {s : List Char}
    (hmt : MemTail post specs s) (hsome : ∃ sp ∈ specs, sp ≠ none) :
    ∃ s3, dropSpaces s = ',' :: s3 := by
  induction hmt with
  | done => simp at hsome
  | gap _ ih => exact ih hsome
  | absent _ ih =>
    refine ih ?_
    obtain ⟨sp, hmem, hne⟩ := hsome
    rcases List.mem_cons.mp hmem with rfl | h
    · exact absurd rfl hne
    · exact ⟨sp, h, hne⟩
  | present k j _ _ _ =>
    exact ⟨_, rfl⟩


/-- Builds the member-sequence shape for a space-joined run of
`valueToConcat` texts followed by a well-shaped remainder. -/
theorem memTail_sj {post : List Char} :
    ∀ (specsA : List FragSpec), (∀ sp ∈ specsA, specKeyOk sp) →
    ∀ (specsB : List FragSpec) (s0 : List Char), MemTail post specsB s0 →
    MemTail post (specsA ++ specsB) (sj (specsA.map avSpec) ++ s0) := by
  intro specsA
  induction specsA with
  | nil =>
    intro _ specsB s0 h
    simpa [sj] using h
  | cons sp specsA ih =>
    intro hok specsB s0 h
    have htail := ih (fun x hx => hok x (by simp [hx])) specsB s0 h
    match sp with
    | none =>
      have hshape : sj ((none :: specsA).map avSpec) ++ s0 =
          ' ' :: (sj (specsA.map avSpec) ++ s0) := by
        simp [sj, avSpec]
      rw [hshape]
      exact MemTail.absent (MemTail.gap htail)
    | some (k, j) =>
      have hk : plainKey k := hok (some (k, j)) (by simp) k j rfl
      have hshape : sj ((some (k, j) :: specsA).map avSpec) ++ s0 =
          ',' :: (entryChars k j ++ (' ' :: (sj (specsA.map avSpec) ++ s0))) := by
        simp [sj, avSpec]
      rw [hshape]
      exact MemTail.present k j hk (MemTail.gap htail)


/-! ## Top-level parses of the concatenated text -/

theorem jsonValue_open_present (g : Nat) (sp0 sp1 : List Char) (k0 : String)
    (j0 : Json) (specs : List FragSpec) (S : List Char)
    (h0 : AllSp sp0) (h1 : AllSp sp1) (hk : plainKey k0)
    (hmt : MemTail [] specs S)
    (hg1 : pfuel j0 ≤ g) (hg2 : specsFuel specs ≤ g) :
    jsonValue (g + 2) (sp0 ++ '{' :: (sp1 ++ (entryChars k0 j0 ++ (' ' :: S)))) =
      some (Json.obj (foldSpecs (setKey [] k0 (canon j0)) specs), []) := by
  have hd0 : dropSpaces (sp0 ++ '{' :: (sp1 ++ (entryChars k0 j0 ++ (' ' :: S)))) =
      '{' :: (sp1 ++ (entryChars k0 j0 ++ (' ' :: S))) := by
    rw [dropSpaces_spaces (allSp_isSpace h0), dropSpaces_cons (by decide)]
  show (match dropSpaces (sp0 ++ '{' :: (sp1 ++ (entryChars k0 j0 ++ (' ' :: S)))) with
    | 'n' :: 'u' :: 'l' :: 'l' :: r => some (Json.null, r)
    | 't' :: 'r' :: 'u' :: 'e' :: r => some (Json.bool true, r)
    | 'f' :: 'a' :: 'l' :: 's' :: 'e' :: r => some (Json.bool false, r)
    | '"' :: r =>
      match strBody r with
      | some p => some (Json.str ⟨p.1⟩, p.2)
      | none => none
    | '[' :: r => jsonElems (g + 1) (dropSpaces r)
    | '{' :: r => jsonMembers (g + 1) (dropSpaces r)
    | other =>
      match numToken other with
      | some p => some (Json.num p.1, p.2)
      | none => none) = _
  rw [hd0]
  show jsonMembers (g + 1)
    (dropSpaces (sp1 ++ (entryChars k0 j0 ++ (' ' :: S)))) = _
  have hd1 : dropSpaces (sp1 ++ (entryChars k0 j0 ++ (' ' :: S))) =
      entryChars k0 j0 ++ (' ' :: S) := by
    rw [dropSpaces_spaces (allSp_isSpace h1)]
    have hx : entryChars k0 j0 ++ (' ' :: S) =
        '"' :: ((k0.data ++ '"' :: ':' :: ' ' :: jsonChars j0) ++ (' ' :: S)) := by
      simp [entryChars]
    rw [hx, dropSpaces_cons (by decide)]
  rw [hd1]
  have hentry : entryChars k0 j0 ++ (' ' :: S) =
      '"' :: (k0.data ++ ('"' :: ':' :: ' ' :: (jsonChars j0 ++ (' ' :: S)))) := by
    simp [entryChars]
  rw [hentry]
  have hstep : jsonMembers (g + 1)
      ('"' :: (k0.data ++ ('"' :: ':' :: ' ' :: (jsonChars j0 ++ (' ' :: S))))) =
      (match strBody (k0.data ++ ('"' :: ':' :: ' ' :: (jsonChars j0 ++ (' ' :: S)))) with
      | some kp =>
        match dropSpaces kp.2 with
        | ':' :: r2 =>
          match jsonValue g r2 with
          | some vp => jsonMembersRest g (setKey [] ⟨kp.1⟩ vp.1) vp.2
          | none => none
        | _ => none
      | none => none) := rfl
  rw [hstep, strBody_plain k0.data hk (':' :: ' ' :: (jsonChars j0 ++ (' ' :: S)))]
  have hval : jsonValue g (' ' :: (jsonChars j0 ++ (' ' :: S))) =
      some (canon j0, ' ' :: S) := by
    rw [jsonValue_space]
    exact jsonValue_rt g j0 (' ' :: S) hg1 rfl
  show (match jsonValue g (' ' :: (jsonChars j0 ++ (' ' :: S))) with
    | some vp => jsonMembersRest g (setKey [] ⟨k0.data⟩ vp.1) vp.2
    | none => none) = _
  rw [hval]
  show jsonMembersRest g (setKey [] k0 (canon j0)) (' ' :: S) = _
  rw [jsonMembersRest_space]
  exact jsonMembersRest_memTail hmt g (setKey [] k0 (canon j0)) hg2


theorem jsonValue_open_allAbsent (g : Nat) (sp0 sp1 : List Char)
    (specs : List FragSpec) (S : List Char)
    (h0 : AllSp sp0) (h1 : AllSp sp1)
    (hmt : MemTail [] specs S) (hall : ∀ sp ∈ specs, sp = none) :
    jsonValue (g + 2) (sp0 ++ '{' :: (sp1 ++ S)) = some (Json.obj [], []) := by
  have hd0 : dropSpaces (sp0 ++ '{' :: (sp1 ++ S)) = '{' :: (sp1 ++ S) := by
    rw [dropSpaces_spaces (allSp_isSpace h0), dropSpaces_cons (by decide)]
  show (match dropSpaces (sp0 ++ '{' :: (sp1 ++ S)) with
    | 'n' :: 'u' :: 'l' :: 'l' :: r => some (Json.null, r)
    | 't' :: 'r' :: 'u' :: 'e' :: r => some (Json.bool true, r)
    | 'f' :: 'a' :: 'l' :: 's' :: 'e' :: r => some (Json.bool false, r)
    | '"' :: r =>
      match strBody r with
      | some p => some (Json.str ⟨p.1⟩, p.2)
      | none => none
    | '[' :: r => jsonElems (g + 1) (dropSpaces r)
    | '{' :: r => jsonMembers (g + 1) (dropSpaces r)
    | other =>
      match numToken other with
      | some p => some (Json.num p.1, p.2)
      | none => none) = _
  rw [hd0]
  show jsonMembers (g + 1) (dropSpaces (sp1 ++ S)) = _
  rw [dropSpaces_spaces (allSp_isSpace h1), memTail_allAbsent hmt hall]
  rfl


theorem jsonValue_open_leadingComma (g : Nat) (sp0 sp1 : List Char)
    (specs : List FragSpec) (S : List Char)
    (h0 : AllSp sp0) (h1 : AllSp sp1)
    (hmt : MemTail [] specs S) (hsome : ∃ sp ∈ specs, sp ≠ none) :
    jsonValue (g + 2) (sp0 ++ '{' :: (sp1 ++ S)) = none := by
  have hd0 : dropSpaces (sp0 ++ '{' :: (sp1 ++ S)) = '{' :: (sp1 ++ S) := by
    rw [dropSpaces_spaces (allSp_isSpace h0), dropSpaces_cons (by decide)]
  show (match dropSpaces (sp0 ++ '{' :: (sp1 ++ S)) with
    | 'n' :: 'u' :: 'l' :: 'l' :: r => some (Json.null, r)
    | 't' :: 'r' :: 'u' :: 'e' :: r => some (Json.bool true, r)
    | 'f' :: 'a' :: 'l' :: 's' :: 'e' :: r => some (Json.bool false, r)
    | '"' :: r =>
      match strBody r with
      | some p => some (Json.str ⟨p.1⟩, p.2)
      | none => none
    | '[' :: r => jsonElems (g + 1) (dropSpaces r)
    | '{' :: r => jsonMembers (g + 1) (dropSpaces r)
    | other =>
      match numToken other with
      | some p => some (Json.num p.1, p.2)
      | none => none) = _
  rw [hd0]
  show jsonMembers (g + 1) (dropSpaces (sp1 ++ S)) = _
  obtain ⟨s3, hs3⟩ := memTail_firstPresent hmt hsome
  rw [dropSpaces_spaces (allSp_isSpace h1), hs3]
  rfl


/-! ## Pipeline-stage characterizations -/

theorem memTail_gaps {post : List Char} {specs : List FragSpec} {s : List Char} :
    ∀ g : List Char, AllSp g → MemTail post specs s → MemTail post specs (g ++ s)
  | [], _, h => by simpa using h
  | c :: t, hg, h => by
    have hc : c = ' ' := hg c (by simp)
    subst hc
    exact MemTail.gap (memTail_gaps t (fun x hx => hg x (by simp [hx])) h)


theorem jsonMembersRest_spaces (fuel : Nat) (acc : List (String × Json)) :
    ∀ g : List Char, AllSp g → ∀ s : List Char,
    jsonMembersRest fuel acc (g ++ s) = jsonMembersRest fuel acc s
  | [], _, s => rfl
  | c :: t, hg, s => by
    have hc : c = ' ' := hg c (by simp)
    subst hc
    rw [List.cons_append, jsonMembersRest_space]
    exact jsonMembersRest_spaces fuel acc t (fun x hx => hg x (by simp [hx])) s


theorem lookupKey_map_fn (F : String → Json → Json) :
    ∀ (l : List (String × Json)) (k : String),
    lookupKey (l.map (fun p => (p.1, F p.1 p.2))) k = (lookupKey l k).map (F k)
  | [], _ => rfl
  | (k0, v0) :: l, k => by
    by_cases h : k0 = k
    · subst h
      simp [lookupKey]
    · simp only [List.map_cons, lookupKey, if_neg h]
      exact lookupKey_map_fn F l k


theorem lookupKey_append_some {l1 : List (String × Json)} {k : String} {v : Json}
    (h : lookupKey l1 k = some v) (l2 : List (String × Json)) :
    lookupKey (l1 ++ l2) k = some v := by
  induction l1 with
  | nil => simp [lookupKey] at h
  | cons p l ih =>
    obtain ⟨k0, v0⟩ := p
    by_cases hk : k0 = k
    · subst hk
      simp [lookupKey] at h
      simp [lookupKey, h]
    · simp only [lookupKey, if_neg hk] at h
      simpa [lookupKey, hk] using ih h


theorem lookupKey_keyed (G : String → Json) :
    ∀ (l : List String) (f : String), f ∈ l →
    lookupKey (l.map (fun x => (x, G x))) f = some (G f)
  | [], f, hf => by simp at hf
  | a :: l, f, hf => by
    by_cases h : a = f
    · subst h
      simp [lookupKey]
    · have : f ∈ l := by
        rcases List.mem_cons.mp hf with h1 | h1
        · exact absurd h1.symm h
        · exact h1
      simp only [List.map_cons, lookupKey, if_neg h]
      exact lookupKey_keyed G l f this


theorem lookupKey_placeholder (req opt : List String) (uuid : String → String)
    {f : String} (hf : f ∈ declaredFields req opt) :
    lookupKey (generatePlaceholderTask req opt uuid) f = some (Json.str (uuid f)) := by
  unfold generatePlaceholderTask
  exact lookupKey_keyed _ _ f (List.mem_dedup.mpr hf)


theorem lookupKey_merged (req opt : List String) (uuid : String → String)
    (input : List (String × Json)) {f : String} (hf : f ∈ declaredFields req opt) :
    lookupKey (mergeWithPlaceholderValuesTask (generatePlaceholderTask req opt uuid) input) f
      = some (mergedValue uuid input f) := by
  unfold mergeWithPlaceholderValuesTask jsonMerge
  apply lookupKey_append_some
  rw [lookupKey_map_fn (fun k v => (lookupKey input k).getD v) _ f,
    lookupKey_placeholder req opt uuid hf]
  rfl


theorem optionalPropertiesAsArray_eq (req opt : List String) (uuid : String → String)
    (input : List (String × Json)) :
    optionalPropertiesAsArrayTask req opt
      (mergeWithPlaceholderValuesTask (generatePlaceholderTask req opt uuid) input)
      = some ((declaredFields req opt).map
          (fun f => Item.mk f (mergedValue uuid input f))) := by
  unfold optionalPropertiesAsArrayTask
  have hgen : ∀ l : List String, (∀ f ∈ l, f ∈ declaredFields req opt) →
      l.mapM (fun f =>
        (lookupKey (mergeWithPlaceholderValuesTask
          (generatePlaceholderTask req opt uuid) input) f).map
          (fun v => Item.mk f v)) =
      some (l.map (fun f => Item.mk f (mergedValue uuid input f))) := by
    intro l
    induction l with
    | nil => intro _; rfl
    | cons a l ih =>
      intro hl
      rw [List.mapM_cons]
      rw [lookupKey_merged req opt uuid input (hl a (by simp))]
      rw [ih (fun f hf => hl f (by simp [hf]))]
      rfl
  exact hgen _ (fun f hf => hf)


theorem choiceTask_eq (dp : Json → String → Json) (execId : String) (it : Item) :
    choiceTask dp execId it =
      Frag.mk (avSpec (fragSpecOf dp execId it)) (nnvSpec (fragSpecOf dp execId it)) := by
  unfold choiceTask fragSpecOf
  by_cases h : choiceCondition it.value execId
  · simp [h, passNullValues, avSpec, nnvSpec]
  · simp only [if_neg h]
    rw [show processObjectValuesTask dp it =
      Item.mk it.propertyName (dp it.value it.propertyName) from rfl]
    rw [passValues_frag]
    rfl


theorem avSpec_ne_space (sp : FragSpec) : ((avSpec sp) != " ") = true := by
  match sp with
  | none => rfl
  | some (k, j) =>
    simp only [avSpec, bne_iff_ne, ne_eq]
    intro h
    have : (',' :: entryChars k j) = [' '] := congrArg String.data h
    simp at this


theorem selectors_nnv (dp : Json → String → Json) (execId : String) (items : List Item) :
    notNullValuesSelector (mapTaskIterations dp execId items) =
      items.map (fun it => nnvSpec (fragSpecOf dp execId it)) := by
  unfold notNullValuesSelector mapTaskIterations
  have hfilter : (items.map (choiceTask dp execId)).filter
      (fun fr => fr.valueToConcat != " ") = items.map (choiceTask dp execId) := by
    rw [List.filter_eq_self]
    intro fr hfr
    obtain ⟨it, hit, rfl⟩ := List.mem_map.mp hfr
    rw [choiceTask_eq]
    exact avSpec_ne_space _
  rw [hfilter, List.map_map]
  congr 1
  funext it
  rw [Function.comp_apply, choiceTask_eq]


theorem selectors_av (dp : Json → String → Json) (execId : String) (items : List Item) :
    allValuesSelector (mapTaskIterations dp execId items) =
      items.map (fun it => avSpec (fragSpecOf dp execId it)) := by
  unfold allValuesSelector mapTaskIterations
  rw [List.map_map]
  congr 1
  funext it
  rw [Function.comp_apply, choiceTask_eq]


/-! ## stringToJson on the three top-level shapes -/

theorem entryChars_length (k : String) (j : Json) :
    (entryChars k j).length = k.data.length + (jsonChars j).length + 4 := by
  simp only [entryChars, List.length_cons, List.length_append]
  omega


theorem stringToJson_open_present (sp0 sp1 : List Char) (k0 : String) (j0 : Json)
    (specs : List FragSpec) (S : List Char)
    (h0 : AllSp sp0) (h1 : AllSp sp1) (hk : plainKey k0) (hmt : MemTail [] specs S) :
    stringToJson ⟨sp0 ++ '{' :: (sp1 ++ (entryChars k0 j0 ++ (' ' :: S)))⟩ =
      some (Json.obj (foldSpecs (setKey [] k0 (canon j0)) specs)) := by
  show (match jsonValue
      ((sp0 ++ '{' :: (sp1 ++ (entryChars k0 j0 ++ (' ' :: S)))).length + 1)
      (sp0 ++ '{' :: (sp1 ++ (entryChars k0 j0 ++ (' ' :: S)))) with
    | some p => if dropSpaces p.2 = [] then some p.1 else none
    | none => none) = _
  have hL : (sp0 ++ '{' :: (sp1 ++ (entryChars k0 j0 ++ (' ' :: S)))).length =
      sp0.length + sp1.length + (entryChars k0 j0).length + S.length + 2 := by
    simp only [List.length_append, List.length_cons]
    omega
  have hexp : (sp0 ++ '{' :: (sp1 ++ (entryChars k0 j0 ++ (' ' :: S)))).length + 1 =
      ((sp0 ++ '{' :: (sp1 ++ (entryChars k0 j0 ++ (' ' :: S)))).length - 1) + 2 := by
    rw [hL]
    omega
  rw [hexp]
  rw [jsonValue_open_present _ sp0 sp1 k0 j0 specs S h0 h1 hk hmt ?b1 ?b2]
  · rfl
  case b1 =>
    have h1 := pfuel_le j0
    have h2 := entryChars_length k0 j0
    omega
  case b2 =>
    have h1 := memTail_fuel hmt
    have h2 := entryChars_length k0 j0
    omega


theorem stringToJson_open_allAbsent (sp0 sp1 : List Char)
    (specs : List FragSpec) (S : List Char)
    (h0 : AllSp sp0) (h1 : AllSp sp1)
    (hmt : MemTail [] specs S) (hall : ∀ sp ∈ specs, sp = none) :
    stringToJson ⟨sp0 ++ '{' :: (sp1 ++ S)⟩ = some (Json.obj []) := by
  show (match jsonValue ((sp0 ++ '{' :: (sp1 ++ S)).length + 1)
      (sp0 ++ '{' :: (sp1 ++ S)) with
    | some p => if dropSpaces p.2 = [] then some p.1 else none
    | none => none) = _
  have hexp : (sp0 ++ '{' :: (sp1 ++ S)).length + 1 =
      ((sp0 ++ '{' :: (sp1 ++ S)).length - 1) + 2 := by
    simp only [List.length_append, List.length_cons]
    omega
  rw [hexp]
  rw [jsonValue_open_allAbsent _ sp0 sp1 specs S h0 h1 hmt hall]
  rfl


theorem stringToJson_open_leadingComma (sp0 sp1 : List Char)
    (specs : List FragSpec) (S : List Char)
    (h0 : AllSp sp0) (h1 : AllSp sp1)
    (hmt : MemTail [] specs S) (hsome : ∃ sp ∈ specs, sp ≠ none) :
    stringToJson ⟨sp0 ++ '{' :: (sp1 ++ S)⟩ = none := by
  show (match jsonValue ((sp0 ++ '{' :: (sp1 ++ S)).length + 1)
      (sp0 ++ '{' :: (sp1 ++ S)) with
    | some p => if dropSpaces p.2 = [] then some p.1 else none
    | none => none) = _
  have hexp : (sp0 ++ '{' :: (sp1 ++ S)).length + 1 =
      ((sp0 ++ '{' :: (sp1 ++ S)).length - 1) + 2 := by
    simp only [List.length_append, List.length_cons]
    omega
  rw [hexp]
  rw [jsonValue_open_leadingComma _ sp0 sp1 specs S h0 h1 hmt hsome]


theorem evaluate_eq_concat (req opt : List String) (dp : Json → String → Json)
    (uuid : String → String) (execId : String) (input : List (String × Json)) :
    evaluate req opt dp uuid execId input =
      (concatTask req opt
        ((declaredFields req opt).map
          (fun f => nnvSpec (fieldSpec dp uuid execId input f)))
        ((declaredFields req opt).map
          (fun f => avSpec (fieldSpec dp uuid execId input f)))).bind
        toJsonTask := by
  show (do
    let items ← optionalPropertiesAsArrayTask req opt
      (mergeWithPlaceholderValuesTask (generatePlaceholderTask req opt uuid) input)
    let frags : List Frag := mapTaskIterations dp execId items
    let text ← concatTask req opt (notNullValuesSelector frags) (allValuesSelector frags)
    toJsonTask text) = _
  rw [optionalPropertiesAsArray_eq]
  show (concatTask req opt
    (notNullValuesSelector (mapTaskIterations dp execId
      ((declaredFields req opt).map (fun f => Item.mk f (mergedValue uuid input f)))))
    (allValuesSelector (mapTaskIterations dp execId
      ((declaredFields req opt).map (fun f => Item.mk f (mergedValue uuid input f)))))).bind
    toJsonTask = _
  rw [selectors_nnv, selectors_av, List.map_map, List.map_map]
  rfl


theorem fieldSpec_keyOk (dp : Json → String → Json) (uuid : String → String)
    (execId : String) (input : List (String × Json)) (fields : List String)
    (hplain : ∀ f ∈ fields, plainKey f) :
    ∀ sp ∈ fields.map (fieldSpec dp uuid execId input), specKeyOk sp := by
  intro sp hsp
  obtain ⟨f, hf, rfl⟩ := List.mem_map.mp hsp
  intro k j hkj
  unfold fieldSpec at hkj
  by_cases hc : choiceCondition (mergedValue uuid input f) execId
  · rw [if_pos hc] at hkj
    exact absurd hkj (by simp)
  · rw [if_neg hc] at hkj
    have hpair := Option.some.inj hkj
    have hkf : f = k := congrArg Prod.fst hpair
    rw [← hkf]
    exact hplain f hf


theorem memTail_of_specs (specs : List FragSpec) (gapM : List Char)
    (hgapM : AllSp gapM) (hok : ∀ sp ∈ specs, specKeyOk sp) (m : Nat) :
    MemTail [] specs
      (sj ((specs.take m).map avSpec) ++
        (gapM ++ (sj ((specs.drop m).map avSpec) ++ ['\x7d']))) := by
  have hinner : MemTail [] (specs.drop m)
      (sj ((specs.drop m).map avSpec) ++ ['\x7d']) := by
    have hbase : MemTail ([] : List Char) [] ('}' :: []) := MemTail.done
    have := memTail_sj (specs.drop m)
      (fun sp hsp => hok sp (List.mem_of_mem_drop hsp)) [] ('}' :: []) hbase
    simpa using this
  have hgapped : MemTail [] (specs.drop m)
      (gapM ++ (sj ((specs.drop m).map avSpec) ++ ['\x7d'])) :=
    memTail_gaps gapM hgapM hinner
  have houter := memTail_sj (specs.take m)
    (fun sp hsp => hok sp (List.mem_of_mem_take hsp)) (specs.drop m) _ hgapped
  rw [List.take_append_drop] at houter
  exact houter


theorem concat_parse_present (req opt : List String) (specs : List FragSpec)
    (k0 : String) (j0 : Json) (tailNnv : List String)
    (hlen : specs.length = (declaredFields req opt).length)
    (hpos : 1 ≤ specs.length)
    (hok : ∀ sp ∈ specs, specKeyOk sp) (hk0 : plainKey k0) :
    (concatTask req opt (nnvSpec (some (k0, j0)) :: tailNnv)
        (specs.map avSpec)).bind toJsonTask =
      some (Json.obj (foldSpecs (setKey [] k0 (canon j0)) specs)) := by
  show toJsonTask (statesFormat (concatFormatString req opt)
    ("\x7b" :: nnvSpec (some (k0, j0)) :: ((specs.map avSpec) ++ ["\x7d"]))) = _
  obtain ⟨sp1, gapM, hsp1, hgapM, htext⟩ :=
    concatText_shape req opt (nnvSpec (some (k0, j0))) (specs.map avSpec)
      (by simpa using hlen) (by simpa using hpos)
  rw [List.length_map, ← List.map_take, ← List.map_drop] at htext
  have hv0 : (nnvSpec (some (k0, j0))).data = entryChars k0 j0 := rfl
  rw [hv0] at htext
  have htext2 : statesFormat (concatFormatString req opt)
      ("\x7b" :: nnvSpec (some (k0, j0)) :: ((specs.map avSpec) ++ ["\x7d"])) =
      ⟨[' '] ++ '{' :: (sp1 ++ (entryChars k0 j0 ++ (' ' ::
        (sj ((specs.take (specs.length - 2)).map avSpec) ++
          (gapM ++ (sj ((specs.drop (specs.length - 2)).map avSpec) ++ ['\x7d']))))))⟩ := by
    apply String.ext
    rw [htext]
    rfl
  rw [htext2]
  show stringToJson _ = _
  rw [stringToJson_open_present [' '] sp1 k0 j0 specs _
    (by intro c hc; simpa using hc) hsp1 hk0
    (memTail_of_specs specs gapM hgapM hok (specs.length - 2))]


theorem concat_parse_absent_all (req opt : List String) (specs : List FragSpec)
    (tailNnv : List String)
    (hlen : specs.length = (declaredFields req opt).length)
    (hpos : 1 ≤ specs.length)
    (hok : ∀ sp ∈ specs, specKeyOk sp)
    (hall : ∀ sp ∈ specs, sp = none) :
    (concatTask req opt (nnvSpec none :: tailNnv)
        (specs.map avSpec)).bind toJsonTask = some (Json.obj []) := by
  show toJsonTask (statesFormat (concatFormatString req opt)
    ("\x7b" :: nnvSpec none :: ((specs.map avSpec) ++ ["\x7d"]))) = _
  obtain ⟨sp1, gapM, hsp1, hgapM, htext⟩ :=
    concatText_shape req opt (nnvSpec none) (specs.map avSpec)
      (by simpa using hlen) (by simpa using hpos)
  rw [List.length_map, ← List.map_take, ← List.map_drop] at htext
  have htext2 : statesFormat (concatFormatString req opt)
      ("\x7b" :: nnvSpec none :: ((specs.map avSpec) ++ ["\x7d"])) =
      ⟨[' '] ++ '{' :: ((sp1 ++ [' ']) ++
        (sj ((specs.take (specs.length - 2)).map avSpec) ++
          (gapM ++ (sj ((specs.drop (specs.length - 2)).map avSpec) ++ ['\x7d']))))⟩ := by
    apply String.ext
    rw [htext]
    show ' ' :: '{' :: (sp1 ++ ((nnvSpec none).data ++ (' ' :: _))) = _
    simp [nnvSpec]
  rw [htext2]
  show stringToJson _ = _
  rw [stringToJson_open_allAbsent [' '] (sp1 ++ [' ']) specs _
    (by intro c hc; simpa using hc)
    (by intro c hc
        rcases List.mem_append.mp hc with h | h
        · exact hsp1 c h
        · simpa using h)
    (memTail_of_specs specs gapM hgapM hok (specs.length - 2)) hall]


theorem concat_parse_absent_some (req opt : List String) (specs : List FragSpec)
    (tailNnv : List String)
    (hlen : specs.length = (declaredFields req opt).length)
    (hpos : 1 ≤ specs.length)
    (hok : ∀ sp ∈ specs, specKeyOk sp)
    (hsome : ∃ sp ∈ specs, sp ≠ none) :
    (concatTask req opt (nnvSpec none :: tailNnv)
        (specs.map avSpec)).bind toJsonTask = none := by
  show toJsonTask (statesFormat (concatFormatString req opt)
    ("\x7b" :: nnvSpec none :: ((specs.map avSpec) ++ ["\x7d"]))) = _
  obtain ⟨sp1, gapM, hsp1, hgapM, htext⟩ :=
    concatText_shape req opt (nnvSpec none) (specs.map avSpec)
      (by simpa using hlen) (by simpa using hpos)
  rw [List.length_map, ← List.map_take, ← List.map_drop] at htext
  have htext2 : statesFormat (concatFormatString req opt)
      ("\x7b" :: nnvSpec none :: ((specs.map avSpec) ++ ["\x7d"])) =
      ⟨[' '] ++ '{' :: ((sp1 ++ [' ']) ++
        (sj ((specs.take (specs.length - 2)).map avSpec) ++
          (gapM ++ (sj ((specs.drop (specs.length - 2)).map avSpec) ++ ['\x7d']))))⟩ := by
    apply String.ext
    rw [htext]
    show ' ' :: '{' :: (sp1 ++ ((nnvSpec none).data ++ (' ' :: _))) = _
    simp [nnvSpec]
  rw [htext2]
  show stringToJson _ = _
  rw [stringToJson_open_leadingComma [' '] (sp1 ++ [' ']) specs _
    (by intro c hc; simpa using hc)
    (by intro c hc
        rcases List.mem_append.mp hc with h | h
        · exact hsp1 c h
        · simpa using h)
    (memTail_of_specs specs gapM hgapM hok (specs.length - 2)) hsome]


theorem evaluate_first_present (req opt : List String) (dp : Json → String → Json)
    (uuid : String → String) (execId : String) (input : List (String × Json))
    (f0 : String) (rest : List String)
    (hfields : declaredFields req opt = f0 :: rest)
    (hplain : ∀ f ∈ declaredFields req opt, plainKey f)
    (hcond : choiceCondition (mergedValue uuid input f0) execId = false) :
    evaluate req opt dp uuid execId input =
      some (Json.obj (foldSpecs
        (setKey [] f0 (canon (dp (mergedValue uuid input f0) f0)))
        ((declaredFields req opt).map (fieldSpec dp uuid execId input)))) := by
  rw [evaluate_eq_concat]
  have hspec0 : fieldSpec dp uuid execId input f0 =
      some (f0, dp (mergedValue uuid input f0) f0) := by
    unfold fieldSpec
    rw [hcond]
    rfl
  have hmapn : (declaredFields req opt).map
      (fun f => nnvSpec (fieldSpec dp uuid execId input f)) =
      ((declaredFields req opt).map (fieldSpec dp uuid execId input)).map nnvSpec := by
    rw [List.map_map]
    rfl
  have hmapa : (declaredFields req opt).map
      (fun f => avSpec (fieldSpec dp uuid execId input f)) =
      ((declaredFields req opt).map (fieldSpec dp uuid execId input)).map avSpec := by
    rw [List.map_map]
    rfl
  rw [hmapn, hmapa, hfields]
  have hnnv : ((f0 :: rest).map (fieldSpec dp uuid execId input)).map nnvSpec =
      nnvSpec (some (f0, dp (mergedValue uuid input f0) f0)) ::
        ((rest.map (fieldSpec dp uuid execId input)).map nnvSpec) := by
    simp [hspec0]
  rw [hnnv]
  exact concat_parse_present req opt ((f0 :: rest).map (fieldSpec dp uuid execId input))
    f0 (dp (mergedValue uuid input f0) f0) _
    (by simp [hfields])
    (by simp)
    (fieldSpec_keyOk dp uuid execId input (f0 :: rest) (hfields ▸ hplain))
    (hplain f0 (hfields ▸ List.mem_cons_self f0 rest))


theorem evaluate_all_absent (req opt : List String) (dp : Json → String → Json)
    (uuid : String → String) (execId : String) (input : List (String × Json))
    (f0 : String) (rest : List String)
    (hfields : declaredFields req opt = f0 :: rest)
    (hplain : ∀ f ∈ declaredFields req opt, plainKey f)
    (hall : ∀ f ∈ declaredFields req opt,
      choiceCondition (mergedValue uuid input f) execId = true) :
    evaluate req opt dp uuid execId input = some (Json.obj []) := by
  rw [evaluate_eq_concat]
  have hspecf : ∀ f ∈ declaredFields req opt,
      fieldSpec dp uuid execId input f = none := by
    intro f hf
    unfold fieldSpec
    rw [hall f hf]
    rfl
  have hspec0 : fieldSpec dp uuid execId input f0 = none :=
    hspecf f0 (hfields ▸ List.mem_cons_self f0 rest)
  have hmapn : (declaredFields req opt).map
      (fun f => nnvSpec (fieldSpec dp uuid execId input f)) =
      ((declaredFields req opt).map (fieldSpec dp uuid execId input)).map nnvSpec := by
    rw [List.map_map]
    rfl
  have hmapa : (declaredFields req opt).map
      (fun f => avSpec (fieldSpec dp uuid execId input f)) =
      ((declaredFields req opt).map (fieldSpec dp uuid execId input)).map avSpec := by
    rw [List.map_map]
    rfl
  rw [hmapn, hmapa, hfields]
  have hnnv : ((f0 :: rest).map (fieldSpec dp uuid execId input)).map nnvSpec =
      nnvSpec none :: ((rest.map (fieldSpec dp uuid execId input)).map nnvSpec) := by
    simp [hspec0]
  rw [hnnv]
  exact concat_parse_absent_all req opt ((f0 :: rest).map (fieldSpec dp uuid execId input)) _
    (by simp [hfields])
    (by simp)
    (fieldSpec_keyOk dp uuid execId input (f0 :: rest) (hfields ▸ hplain))
    (by
      intro sp hsp
      obtain ⟨f, hf, rfl⟩ := List.mem_map.mp hsp
      exact hspecf f (hfields ▸ hf))


theorem evaluate_absent_then_present (req opt : List String) (dp : Json → String → Json)
    (uuid : String → String) (execId : String) (input : List (String × Json))
    (f0 : String) (rest : List String)
    (hfields : declaredFields req opt = f0 :: rest)
    (hplain : ∀ f ∈ declaredFields req opt, plainKey f)
    (hc0 : choiceCondition (mergedValue uuid input f0) execId = true)
    (f1 : String) (hf1 : f1 ∈ declaredFields req opt)
    (hc1 : choiceCondition (mergedValue uuid input f1) execId = false) :
    evaluate req opt dp uuid execId input = none := by
  rw [evaluate_eq_concat]
  have hspec0 : fieldSpec dp uuid execId input f0 = none := by
    unfold fieldSpec
    rw [hc0]
    rfl
  have hmapn : (declaredFields req opt).map
      (fun f => nnvSpec (fieldSpec dp uuid execId input f)) =
      ((declaredFields req opt).map (fieldSpec dp uuid execId input)).map nnvSpec := by
    rw [List.map_map]
    rfl
  have hmapa : (declaredFields req opt).map
      (fun f => avSpec (fieldSpec dp uuid execId input f)) =
      ((declaredFields req opt).map (fieldSpec dp uuid execId input)).map avSpec := by
    rw [List.map_map]
    rfl
  rw [hmapn, hmapa, hfields]
  have hnnv : ((f0 :: rest).map (fieldSpec dp uuid execId input)).map nnvSpec =
      nnvSpec none :: ((rest.map (fieldSpec dp uuid execId input)).map nnvSpec) := by
    simp [hspec0]
  rw [hnnv]
  exact concat_parse_absent_some req opt
    ((f0 :: rest).map (fieldSpec dp uuid execId input)) _
    (by simp [hfields])
    (by simp)
    (fieldSpec_keyOk dp uuid execId input (f0 :: rest) (hfields ▸ hplain))
    ⟨fieldSpec dp uuid execId input f1,
      List.mem_map_of_mem _ (hfields ▸ hf1),
      by
        unfold fieldSpec
        rw [hc1]
        simp⟩


/-! ## Keys of the accumulated object -/

theorem lookupKey_setKey_self (ms : List (String × Json)) (k : String) (v : Json) :
    lookupKey (setKey ms k v) k = some v := by
  induction ms with
  | nil => simp [setKey, lookupKey]
  | cons p ms ih =>
    obtain ⟨k0, v0⟩ := p
    by_cases h : k0 = k
    · subst h
      simp [setKey, lookupKey]
    · simp [setKey, lookupKey, h, ih]


theorem lookupKey_setKey_other {k' k : String} (h : k' ≠ k)
    (ms : List (String × Json)) (v : Json) :
    lookupKey (setKey ms k v) k' = lookupKey ms k' := by
  induction ms with
  | nil =>
    show (if k = k' then some v else none) = none
    rw [if_neg (fun he => h he.symm)]
  | cons p ms ih =>
    obtain ⟨k0, v0⟩ := p
    by_cases h0 : k0 = k
    · subst h0
      have : k0 ≠ k' := fun he => h (he.symm)
      simp [setKey, lookupKey, this]
    · by_cases h1 : k0 = k'
      · subst h1
        simp [setKey, lookupKey, h0]
      · simp [setKey, lookupKey, h0, h1, ih]


theorem setKey_keys (ms : List (String × Json)) (k : String) (v : Json) :
    (setKey ms k v).map Prod.fst =
      if k ∈ ms.map Prod.fst then ms.map Prod.fst else ms.map Prod.fst ++ [k] := by
  induction ms with
  | nil => simp [setKey]
  | cons p ms ih =>
    obtain ⟨k0, v0⟩ := p
    by_cases h : k0 = k
    · subst h
      simp [setKey]
    · have hne : ¬(k = k0) := fun he => h he.symm
      simp only [setKey, if_neg h, List.map_cons, ih]
      by_cases hmem : k ∈ ms.map Prod.fst
      · simp [hmem, hne]
      · simp [hmem, hne]


theorem setKey_keys_nodup {ms : List (String × Json)}
    (h : (ms.map Prod.fst).Nodup) (k : String) (v : Json) :
    ((setKey ms k v).map Prod.fst).Nodup := by
  rw [setKey_keys]
  by_cases hmem : k ∈ ms.map Prod.fst
  · simpa [hmem] using h
  · simp only [if_neg hmem]
    rw [List.nodup_append]
    exact ⟨h, List.nodup_singleton k, by simpa using fun hk => hmem hk⟩


theorem setKey_keys_sub {ms : List (String × Json)} {k x : String} {v : Json}
    (hx : x ∈ (setKey ms k v).map Prod.fst) : x ∈ ms.map Prod.fst ∨ x = k := by
  rw [setKey_keys] at hx
  by_cases hmem : k ∈ ms.map Prod.fst
  · rw [if_pos hmem] at hx
    exact Or.inl hx
  · rw [if_neg hmem] at hx
    rcases List.mem_append.mp hx with h | h
    · exact Or.inl h
    · exact Or.inr (by simpa using h)


theorem foldSpecs_keys {x : String} :
    ∀ (specs : List FragSpec) (acc : List (String × Json)),
    x ∈ (foldSpecs acc specs).map Prod.fst →
    x ∈ acc.map Prod.fst ∨ ∃ j, some (x, j) ∈ specs
  | [], acc, hx => Or.inl hx
  | none :: specs, acc, hx => by
    rcases foldSpecs_keys specs acc hx with h | ⟨j, hj⟩
    · exact Or.inl h
    · exact Or.inr ⟨j, by simp [hj]⟩
  | some (k, j0) :: specs, acc, hx => by
    rcases foldSpecs_keys specs (setKey acc k (canon j0)) hx with h | ⟨j, hj⟩
    · rcases setKey_keys_sub h with h2 | rfl
      · exact Or.inl h2
      · exact Or.inr ⟨j0, by simp⟩
    · exact Or.inr ⟨j, by simp [hj]⟩


theorem foldSpecs_nodup :
    ∀ (specs : List FragSpec) (acc : List (String × Json)),
    (acc.map Prod.fst).Nodup → ((foldSpecs acc specs).map Prod.fst).Nodup
  | [], _, h => h
  | none :: specs, acc, h => foldSpecs_nodup specs acc h
  | some (k, j0) :: specs, acc, h =>
    foldSpecs_nodup specs (setKey acc k (canon j0)) (setKey_keys_nodup h k (canon j0))


theorem foldSpecs_append (acc : List (String × Json)) :
    ∀ l1 l2 : List FragSpec, foldSpecs acc (l1 ++ l2) = foldSpecs (foldSpecs acc l1) l2 := by
  intro l1
  induction l1 generalizing acc with
  | nil => intro l2; rfl
  | cons sp l1 ih =>
    intro l2
    match sp with
    | none => exact ih acc l2
    | some (k, j) => exact ih (setKey acc k (canon j)) l2


theorem foldSpecs_lookup_absent {f : String} :
    ∀ (specs : List FragSpec) (acc : List (String × Json)),
    (∀ sp ∈ specs, ∀ j, sp ≠ some (f, j)) →
    lookupKey (foldSpecs acc specs) f = lookupKey acc f
  | [], _, _ => rfl
  | none :: specs, acc, h =>
    foldSpecs_lookup_absent specs acc (fun sp hsp => h sp (by simp [hsp]))
  | some (k, j0) :: specs, acc, h => by
    have hkf : f ≠ k := by
      intro he
      subst he
      exact absurd rfl (h (some (f, j0)) (by simp) j0)
    show lookupKey (foldSpecs (setKey acc k (canon j0)) specs) f = _
    rw [foldSpecs_lookup_absent specs (setKey acc k (canon j0))
      (fun sp hsp => h sp (by simp [hsp]))]
    exact lookupKey_setKey_other hkf acc (canon j0)


theorem foldSpecs_lookup_last {f : String} {j : Json} (specs2 : List FragSpec)
    (acc : List (String × Json))
    (hnot : ∀ sp ∈ specs2, ∀ j2, sp ≠ some (f, j2)) :
    lookupKey (foldSpecs acc (some (f, j) :: specs2)) f = some (canon j) := by
  show lookupKey (foldSpecs (setKey acc f (canon j)) specs2) f = _
  rw [foldSpecs_lookup_absent specs2 _ hnot]
  exact lookupKey_setKey_self acc f (canon j)


/-! ## Field-spec projections and the shuffled Map scheduling -/

theorem fieldSpec_fst {dp : Json → String → Json} {uuid : String → String}
    {execId : String} {input : List (String × Json)} {g k : String} {j : Json}
    (h : fieldSpec dp uuid execId input g = some (k, j)) : g = k := by
  unfold fieldSpec at h
  by_cases hc : choiceCondition (mergedValue uuid input g) execId
  · rw [if_pos hc] at h
    exact absurd h (by simp)
  · rw [if_neg hc] at h
    exact congrArg Prod.fst (Option.some.inj h)


theorem fieldSpec_ne_some {dp : Json → String → Json} {uuid : String → String}
    {execId : String} {input : List (String × Json)} {g k : String} (hne : g ≠ k) :
    ∀ j, fieldSpec dp uuid execId input g ≠ some (k, j) :=
  fun _ h => hne (fieldSpec_fst h)


theorem lookupIdx_perm : ∀ {l1 l2 : List (Nat × Frag)}, l1.Perm l2 →
    ((l1.map Prod.fst).Nodup) → ∀ i, lookupIdx l1 i = lookupIdx l2 i := by
  intro l1 l2 hperm
  induction hperm with
  | nil =>
    intro _ i
    rfl
  | cons x h ih =>
    intro hnodup i
    obtain ⟨i0, fr⟩ := x
    show (if i0 = i then some fr else lookupIdx _ i) =
      (if i0 = i then some fr else lookupIdx _ i)
    rw [ih ((List.nodup_cons.mp (by simpa using hnodup)).2) i]
  | swap x y l =>
    intro hnodup i
    obtain ⟨i0, f0⟩ := x
    obtain ⟨i1, f1⟩ := y
    have h2 : (i1 :: i0 :: l.map Prod.fst).Nodup := by simpa using hnodup
    have hmem : (i1 : Nat) ∉ (i0 :: l.map Prod.fst) := (List.nodup_cons.mp h2).1
    have hne : i1 ≠ i0 := fun he => hmem (by simp [he])
    show (if i1 = i then some f1 else if i0 = i then some f0 else lookupIdx l i) =
      (if i0 = i then some f0 else if i1 = i then some f1 else lookupIdx l i)
    by_cases h0 : i0 = i
    · by_cases h1 : i1 = i
      · exact absurd (h1.trans h0.symm) hne
      · rw [if_neg h1, if_pos h0, if_pos h0]
    · by_cases h1 : i1 = i
      · rw [if_pos h1, if_neg h0, if_pos h1]
      · rw [if_neg h1, if_neg h0, if_neg h0, if_neg h1]
  | trans h1 h2 ih1 ih2 =>
    intro hnodup i
    exact (ih1 hnodup i).trans (ih2 ((h1.map Prod.fst).nodup_iff.mp hnodup) i)


theorem mapM_option_congr {α β : Type} (f g : α → Option β) :
    ∀ l : List α, (∀ a ∈ l, f a = g a) → l.mapM f = l.mapM g
  | [], _ => rfl
  | a :: l, h => by
    rw [List.mapM_cons, List.mapM_cons, h a (by simp),
      mapM_option_congr f g l (fun b hb => h b (by simp [hb]))]


theorem mapTaskShuffled_inOrder (dp : Json → String → Json) (execId : String) :
    ∀ (items : List Item) (k : Nat),
    (List.range' k items.length).mapM
      (fun i => lookupIdx
        ((items.enumFrom k).map (fun p => (p.1, choiceTask dp execId p.2))) i) =
    some (items.map (choiceTask dp execId))
  | [], _ => rfl
  | it :: items, k => by
    show (List.range' k (items.length + 1)).mapM _ = _
    have hr : List.range' k (items.length + 1) = k :: List.range' (k + 1) items.length := rfl
    rw [hr, List.mapM_cons]
    have hhead : lookupIdx (((it :: items).enumFrom k).map
        (fun p => (p.1, choiceTask dp execId p.2))) k = some (choiceTask dp execId it) := by
      show (if k = k then some (choiceTask dp execId it) else
        lookupIdx ((items.enumFrom (k + 1)).map
          (fun p => (p.1, choiceTask dp execId p.2))) k) = _
      rw [if_pos rfl]
    rw [hhead]
    have htail : (List.range' (k + 1) items.length).mapM
        (fun i => lookupIdx (((it :: items).enumFrom k).map
          (fun p => (p.1, choiceTask dp execId p.2))) i) =
        (List.range' (k + 1) items.length).mapM
          (fun i => lookupIdx ((items.enumFrom (k + 1)).map
            (fun p => (p.1, choiceTask dp execId p.2))) i) := by
      apply mapM_option_congr
      intro i hi
      have hik : k ≠ i := by
        have hlow := (List.mem_range'_1.mp hi).1
        omega
      show (if k = i then some (choiceTask dp execId it) else
        lookupIdx ((items.enumFrom (k + 1)).map
          (fun p => (p.1, choiceTask dp execId p.2))) i) = _
      rw [if_neg hik]
    rw [htail, mapTaskShuffled_inOrder dp execId items (k + 1)]
    rfl


theorem mapTaskShuffled_perm (dp : Json → String → Json) (execId : String)
    (items : List Item) (q : List (Nat × Item)) (hperm : q.Perm items.enum) :
    mapTaskShuffled dp execId items.length q =
      some (mapTaskIterations dp execId items) := by
  unfold mapTaskShuffled
  have hkeys : ((q.map (fun p => (p.1, choiceTask dp execId p.2))).map Prod.fst).Nodup := by
    have h1 : (q.map (fun p => (p.1, choiceTask dp execId p.2))).map Prod.fst =
        q.map Prod.fst := by
      rw [List.map_map]
      rfl
    rw [h1]
    have h2 : (q.map Prod.fst).Perm (items.enum.map Prod.fst) := hperm.map Prod.fst
    have h3 : (items.enum.map Prod.fst).Nodup := by
      rw [List.enum_map_fst]
      exact List.nodup_range _
    exact h2.nodup_iff.mpr h3
  have hlk : ∀ i, lookupIdx (q.map (fun p => (p.1, choiceTask dp execId p.2))) i =
      lookupIdx (items.enum.map (fun p => (p.1, choiceTask dp execId p.2))) i :=
    lookupIdx_perm (hperm.map (fun p => (p.1, choiceTask dp execId p.2))) hkeys
  rw [mapM_option_congr _ _ (List.range items.length) (fun i _ => hlk i)]
  rw [List.range_eq_range']
  have he : items.enum = items.enumFrom 0 := rfl
  rw [he]
  exact mapTaskShuffled_inOrder dp execId items 0


/-! ## Claims -/

/-- C1: the specification states that for every schema and every input
defining a subset of the declared fields, the output record's key set is
exactly keys(input) ∩ declaredFields, each key mapped to the transformed
input value, with absent fields omitted entirely.  The code violates
this.  On the repository's own example schema (required
`requiredProperty`; optional `optionalProperty1`, `optionalProperty2`;
dataProcessing `States.Array($.value)`), with an input that omits
`optionalProperty2`, the run emits `optionalProperty2` anyway, mapped to
the transformed placeholder token: the Choice state (line 184) compares
`$.value` with `$$.Execution.Id`, never with the `States.UUID()`
placeholder that Generate Placeholder (line 63) installed, so the absent
field is processed as if present.  This contradicts the construct's own
documented output (lines 216-225) and its `Remove values absent from the
user input` comment (line 181). -/
theorem C1_absent_field_leaks :
    evaluate ["requiredProperty"] ["optionalProperty1", "optionalProperty2"]
      (fun v _ => Json.arr [v]) (fun f => "uuid-" ++ f) "exec-arn-1"
      [("requiredProperty", Json.str "bar"), ("optionalProperty1", Json.num 1)] =
    some (Json.obj [("requiredProperty", Json.arr [Json.str "bar"]),
      ("optionalProperty1", Json.arr [Json.num 1]),
      ("optionalProperty2", Json.arr [Json.str "uuid-optionalProperty2"])]) := rfl


/-- C2: the specification states that an item whose value equals the
run's sentinel (the placeholder generated for that field) yields the
empty fragment.  The code violates this: an item carrying exactly its
field's placeholder value is routed through the processing branch
(because the Choice tests against the execution id, not the
placeholder), producing a populated fragment instead of the Null values
output. -/
theorem C2_sentinel_not_detected :
    choiceTask (fun v _ => Json.arr [v]) "exec-arn-1"
        (Item.mk "optionalProperty2" (Json.str "uuid-optionalProperty2")) =
      Frag.mk ",\"optionalProperty2\": [\"uuid-optionalProperty2\"]"
        "\"optionalProperty2\": [\"uuid-optionalProperty2\"]" ∧
    Frag.mk ",\"optionalProperty2\": [\"uuid-optionalProperty2\"]"
        "\"optionalProperty2\": [\"uuid-optionalProperty2\"]" ≠ passNullValues := by
  refine ⟨rfl, ?_⟩
  intro h
  have := congrArg Frag.value h
  simp [passNullValues] at this


/-- C3: the presence check in the code compares each item's value against
the single run-wide execution id (`$$.Execution.Id`, line 184), not
against the per-field `States.UUID()` placeholder actually generated
(line 63).  Consequently, for any field absent from the input, the merged
record carries the field's placeholder string as installed, yet the
Choice condition evaluates to false on it whenever that placeholder
differs from the execution id: the equality test is performed against a
value different from the installed default. -/
theorem C3_check_against_execution_id (req opt : List String) (uuid : String → String)
    (execId : String) (input : List (String × Json)) (f : String)
    (hf : f ∈ declaredFields req opt) (habsent : lookupKey input f = none)
    (hneq : uuid f ≠ execId) :
    lookupKey (mergeWithPlaceholderValuesTask
        (generatePlaceholderTask req opt uuid) input) f = some (Json.str (uuid f)) ∧
      choiceCondition (Json.str (uuid f)) execId = false := by
  refine ⟨?_, ?_⟩
  · rw [lookupKey_merged req opt uuid input hf]
    simp [mergedValue, habsent]
  · simp [choiceCondition, hneq]


/-- C3, witnessed on a concrete run. -/
theorem C3_check_against_execution_id_witness :
    lookupKey (mergeWithPlaceholderValuesTask
        (generatePlaceholderTask ["a"] ["b"] (fun f => "u-" ++ f))
        [("a", Json.str "x")]) "b" = some (Json.str "u-b") ∧
      choiceCondition (Json.str "u-b") "exec-1" = false :=
  C3_check_against_execution_id ["a"] ["b"] (fun f => "u-" ++ f) "exec-1"
    [("a", Json.str "x")] "b" (by decide) rfl (by decide)


/-- C5: the specification claims the constructor validates the schema,
failing with `InvalidSchema` on duplicate or empty field names.  It does
not: the constructor (lines 26-247) contains no validation and no failing
path, so a configuration with a duplicate and an empty name builds
successfully. -/
theorem C5_counterexample :
    (handleOptionalParametersBuild ["a", "a"] [""] (fun v _ => v)).isOk = true := rfl


/-- C5 amended: the constructor performs no schema validation at all;
every configuration, duplicate or empty field names included, compiles
successfully, and no `InvalidSchema` failure exists before run time. -/
theorem C5_no_validation (req opt : List String) (dp : Json → String → Json) :
    (handleOptionalParametersBuild req opt dp).isOk = true := rfl


/-- C7: for every schema and every input, the Optional-properties-as-array
state emits exactly one item per declared field — the combined length of
the required and optional lists — in compiled order (required first, then
optional, each in caller order), regardless of which fields the input
supplied. -/
theorem C7_enumerator_shape (req opt : List String) (uuid : String → String)
    (input : List (String × Json)) :
    ∃ items, optionalPropertiesAsArrayTask req opt
        (mergeWithPlaceholderValuesTask (generatePlaceholderTask req opt uuid) input) =
          some items ∧
      items.length = (req ++ opt).length ∧
      items.map Item.propertyName = req ++ opt := by
  refine ⟨_, optionalPropertiesAsArray_eq req opt uuid input, ?_, ?_⟩
  · simp [declaredFields]
  · show ((declaredFields req opt).map
      (fun f => Item.mk f (mergedValue uuid input f))).map Item.propertyName = _
    rw [List.map_map]
    have hid : (Item.propertyName ∘ fun f => Item.mk f (mergedValue uuid input f)) =
        fun f => f := rfl
    rw [hid]
    simp [declaredFields]


/-- C4: the specification states the concatenator always emits
syntactically valid body text holding exactly the present fragments with
correct separators.  The code does not.  What the Concat state (lines
191-214) followed by ToJson (lines 226-231) actually does, proved here
over the fragment outcomes of one run (`sp0` the first declared slot's
outcome, `rest` the others): when the first slot is present, the text
parses, but only because the first entry is emitted twice (its
unprefixed `notNullValues[0]` copy and its comma-prefixed `allValues[0]`
copy) and the parser collapses the duplicate; when every slot is absent,
the text is an empty object; when the first slot is absent and any later
slot is present, the member list starts with a comma, the text is not
valid JSON, and the parse fails — so the claimed one-present-at-middle
and one-present-at-last cases produce a run-time error, not valid
output. -/
theorem C4_concatenator_cases (req opt : List String) (sp0 : FragSpec)
    (rest : List FragSpec)
    (hlen : (sp0 :: rest).length = (declaredFields req opt).length)
    (hok : ∀ sp ∈ sp0 :: rest, specKeyOk sp) :
    (∀ k0 j0, sp0 = some (k0, j0) →
      (concatTask req opt ((sp0 :: rest).map nnvSpec)
          ((sp0 :: rest).map avSpec)).bind toJsonTask =
        some (Json.obj (foldSpecs (setKey [] k0 (canon j0)) (sp0 :: rest)))) ∧
    ((∀ sp ∈ sp0 :: rest, sp = none) →
      (concatTask req opt ((sp0 :: rest).map nnvSpec)
          ((sp0 :: rest).map avSpec)).bind toJsonTask = some (Json.obj [])) ∧
    (sp0 = none → (∃ sp ∈ sp0 :: rest, sp ≠ none) →
      (concatTask req opt ((sp0 :: rest).map nnvSpec)
          ((sp0 :: rest).map avSpec)).bind toJsonTask = none) := by
  refine ⟨?_, ?_, ?_⟩
  · rintro k0 j0 rfl
    rw [show ((some (k0, j0) :: rest).map nnvSpec : List String) =
      nnvSpec (some (k0, j0)) :: rest.map nnvSpec from rfl]
    exact concat_parse_present req opt (some (k0, j0) :: rest) k0 j0 _
      hlen (by simp) hok (hok (some (k0, j0)) (by simp) k0 j0 rfl)
  · intro hall
    have h0 : sp0 = none := hall sp0 (by simp)
    subst h0
    rw [show ((none :: rest).map nnvSpec : List String) =
      nnvSpec none :: rest.map nnvSpec from rfl]
    exact concat_parse_absent_all req opt (none :: rest) _ hlen (by simp) hok hall
  · rintro rfl hsome
    rw [show ((none :: rest).map nnvSpec : List String) =
      nnvSpec none :: rest.map nnvSpec from rfl]
    exact concat_parse_absent_some req opt (none :: rest) _ hlen (by simp) hok hsome


/-- C4, witnessed: with the first declared slot absent and the second
present, the concatenated text fails to parse. -/
theorem C4_concatenator_cases_witness :
    (concatTask ["a"] ["b"]
        (([none, some ("b", Json.num 2)] : List FragSpec).map nnvSpec)
        (([none, some ("b", Json.num 2)] : List FragSpec).map avSpec)).bind
      toJsonTask = none :=
  (C4_concatenator_cases ["a"] ["b"] none [some ("b", Json.num 2)] rfl
    (by
      intro sp hsp k j hkj
      rcases List.mem_cons.mp hsp with rfl | hsp2
      · exact absurd hkj (by simp)
      · have hsp3 : sp = some ("b", Json.num 2) := by simpa using hsp2
        rw [hsp3] at hkj
        have hk : "b" = k := congrArg Prod.fst (Option.some.inj hkj)
        rw [← hk]
        unfold plainKey
        decide)).2.2 rfl
    ⟨some ("b", Json.num 2), by simp, by simp⟩


/-- C4, refuted as stated on a concrete end-to-end run: schema with
optional fields `a`, `b`, `c`, input supplying only the middle field
`b`.  Every placeholder draw here equals the execution id, so the
Choice's absence detection behaves exactly as the construct intends,
isolating the concatenator: the member list starts with a comma, the
final `States.StringToJson` fails, and the run errors instead of
producing the valid output `\x7b"b": [2]\x7d` the specification
requires. -/
theorem C4_counterexample :
    evaluate [] ["a", "b", "c"] (fun v _ => Json.arr [v]) (fun _ => "exec-1")
      "exec-1" [("b", Json.num 2)] = none := rfl


/-- C6: a declared field present in the input with a falsy value (`0`,
`false` or `""`) keeps that value through the merge (lines 85-94): the
merged record carries the falsy value, not the placeholder; the Choice
(lines 182-187) classifies it as present (its value is not the execution
id string — `0` and `false` are not strings at all, and `""` differs
from any non-empty execution id); and the output object maps the field
to its transformed value.  Stated for any run whose first declared slot
is classified present (so the concatenated text parses at all, see C4). -/
theorem C6_falsy_present_retained (req opt : List String) (dp : Json → String → Json)
    (uuid : String → String) (execId : String) (input : List (String × Json))
    (f0 : String) (rest : List String) (f : String) (v : Json)
    (hfields : declaredFields req opt = f0 :: rest)
    (hnodup : (declaredFields req opt).Nodup)
    (hplain : ∀ g ∈ declaredFields req opt, plainKey g)
    (hf : f ∈ declaredFields req opt)
    (hpresent : lookupKey input f = some v)
    (hfalsy : v = Json.num 0 ∨ v = Json.bool false ∨ v = Json.str "")
    (hexec : execId ≠ "")
    (hcond0 : choiceCondition (mergedValue uuid input f0) execId = false) :
    mergedValue uuid input f = v ∧
    choiceCondition v execId = false ∧
    ∃ entries, evaluate req opt dp uuid execId input = some (Json.obj entries) ∧
      lookupKey entries f = some (canon (dp v f)) := by
  have hmv : mergedValue uuid input f = v := by
    unfold mergedValue
    rw [hpresent]
    rfl
  have hcv : choiceCondition v execId = false := by
    rcases hfalsy with rfl | rfl | rfl
    · rfl
    · rfl
    · show (("" : String) == execId) = false
      exact beq_eq_false_iff_ne.mpr (fun h => hexec h.symm)
  refine ⟨hmv, hcv, _,
    evaluate_first_present req opt dp uuid execId input f0 rest hfields hplain hcond0, ?_⟩
  have hfs : fieldSpec dp uuid execId input f = some (f, dp v f) := by
    unfold fieldSpec
    rw [hmv, hcv]
    rfl
  obtain ⟨pre, post, hsplit⟩ := List.append_of_mem hf
  have hnodup2 : (pre ++ f :: post).Nodup := hsplit ▸ hnodup
  have hfpost : f ∉ post := (List.nodup_cons.mp hnodup2.of_append_right).1
  have hmap : (declaredFields req opt).map (fieldSpec dp uuid execId input) =
      pre.map (fieldSpec dp uuid execId input) ++
        some (f, dp v f) :: post.map (fieldSpec dp uuid execId input) := by
    rw [hsplit, List.map_append, List.map_cons, hfs]
  rw [hmap, foldSpecs_append]
  exact foldSpecs_lookup_last _ _ (by
    intro sp hsp j2
    obtain ⟨g, hg, rfl⟩ := List.mem_map.mp hsp
    have hne : g ≠ f := fun he => hfpost (he ▸ hg)
    exact fieldSpec_ne_some hne j2)


/-- C6, witnessed on the specification's own scenario: `required=[id]`,
`optional=[tag]`, transform `v ↦ [v]`, input `\x7bid: "x", tag: 0\x7d`:
the falsy `tag` value `0` survives the merge, is classified present, and
the output maps `tag` to `[0]`. -/
theorem C6_falsy_present_retained_witness :
    mergedValue (fun g => "u-" ++ g) [("id", Json.str "x"), ("tag", Json.num 0)] "tag" =
      Json.num 0 ∧
    choiceCondition (Json.num 0) "exec-1" = false ∧
    ∃ entries, evaluate ["id"] ["tag"] (fun v _ => Json.arr [v]) (fun g => "u-" ++ g)
        "exec-1" [("id", Json.str "x"), ("tag", Json.num 0)] = some (Json.obj entries) ∧
      lookupKey entries "tag" = some (canon (Json.arr [Json.num 0])) :=
  C6_falsy_present_retained ["id"] ["tag"] (fun v _ => Json.arr [v]) (fun g => "u-" ++ g)
    "exec-1" [("id", Json.str "x"), ("tag", Json.num 0)] "id" ["tag"] "tag" (Json.num 0)
    rfl (by decide) (by unfold plainKey; decide) (by decide) rfl (Or.inl rfl)
    (by decide) rfl


/-- C8: branch evaluation order does not change the run's output.  The
per-item branch (lines 182-187) is a pure function of its item, so
evaluating the Map's iterations from a work queue `q` holding the items
in any permuted order, then re-indexing the fragments to the original
positions (`mapTaskShuffled`, the Map state's index-alignment contract),
feeds the selectors (lines 149-155) the same fragment sequence as
sequential in-order iteration and yields the same final output. -/
theorem C8_shuffle_invariant (req opt : List String) (dp : Json → String → Json)
    (uuid : String → String) (execId : String) (input : List (String × Json))
    (items : List Item) (q : List (Nat × Item))
    (hitems : optionalPropertiesAsArrayTask req opt
        (mergeWithPlaceholderValuesTask (generatePlaceholderTask req opt uuid) input) =
      some items)
    (hperm : q.Perm items.enum) :
    (mapTaskShuffled dp execId items.length q).bind (fun frags =>
        (concatTask req opt (notNullValuesSelector frags)
          (allValuesSelector frags)).bind toJsonTask) =
      evaluate req opt dp uuid execId input := by
  rw [mapTaskShuffled_perm dp execId items q hperm]
  show (concatTask req opt (notNullValuesSelector (mapTaskIterations dp execId items))
      (allValuesSelector (mapTaskIterations dp execId items))).bind toJsonTask =
    (do
      let items2 ← optionalPropertiesAsArrayTask req opt
        (mergeWithPlaceholderValuesTask (generatePlaceholderTask req opt uuid) input)
      let frags := mapTaskIterations dp execId items2
      let text ← concatTask req opt (notNullValuesSelector frags) (allValuesSelector frags)
      toJsonTask text)
  rw [hitems]
  rfl


/-- C8, witnessed: a two-item run evaluated back to front gives the same
output as the in-order run. -/
theorem C8_shuffle_invariant_witness :
    (mapTaskShuffled (fun v _ => Json.arr [v]) "exec-1"
        ([Item.mk "id" (Json.str "x"), Item.mk "tag" (Json.num 0)] : List Item).length
        [((1 : Nat), Item.mk "tag" (Json.num 0)), ((0 : Nat), Item.mk "id" (Json.str "x"))]).bind
      (fun frags =>
        (concatTask ["id"] ["tag"] (notNullValuesSelector frags)
          (allValuesSelector frags)).bind toJsonTask) =
      evaluate ["id"] ["tag"] (fun v _ => Json.arr [v]) (fun g => "u-" ++ g) "exec-1"
        [("id", Json.str "x"), ("tag", Json.num 0)] :=
  C8_shuffle_invariant ["id"] ["tag"] (fun v _ => Json.arr [v]) (fun g => "u-" ++ g)
    "exec-1" [("id", Json.str "x"), ("tag", Json.num 0)]
    [Item.mk "id" (Json.str "x"), Item.mk "tag" (Json.num 0)]
    [((1 : Nat), Item.mk "tag" (Json.num 0)), ((0 : Nat), Item.mk "id" (Json.str "x"))]
    rfl
    (List.Perm.swap ((0 : Nat), Item.mk "id" (Json.str "x"))
      ((1 : Nat), Item.mk "tag" (Json.num 0)) [])


/-- C9: when the first declared field is classified present, the Concat
state's text contains that field's `"name": value` rendering twice: once
unprefixed (the `$.notNullValues[0]` argument of the format string) and
once more behind a comma (its `$.allValues[0]` entry, which the reduce
at lines 198-203 also substitutes); the parse then collapses the
duplicate key (last value wins), so the output object is duplicate-free
and maps the field to the single transformed value. -/
theorem C9_duplicated_opening_entry (req opt : List String) (dp : Json → String → Json)
    (uuid : String → String) (execId : String) (input : List (String × Json))
    (f0 : String) (rest : List String)
    (hfields : declaredFields req opt = f0 :: rest)
    (hnodup : (declaredFields req opt).Nodup)
    (hplain : ∀ g ∈ declaredFields req opt, plainKey g)
    (hcond0 : choiceCondition (mergedValue uuid input f0) execId = false) :
    ∃ text pre mid post,
      concatTask req opt
          ((declaredFields req opt).map
            (fun f => nnvSpec (fieldSpec dp uuid execId input f)))
          ((declaredFields req opt).map
            (fun f => avSpec (fieldSpec dp uuid execId input f))) = some text ∧
      text.data =
        pre ++ (entryChars f0 (dp (mergedValue uuid input f0) f0) ++
          (mid ++ (entryChars f0 (dp (mergedValue uuid input f0) f0) ++ post))) ∧
      ∃ entries,
        toJsonTask text = some (Json.obj entries) ∧
        evaluate req opt dp uuid execId input = some (Json.obj entries) ∧
        (entries.map Prod.fst).Nodup ∧
        lookupKey entries f0 =
          some (canon (dp (mergedValue uuid input f0) f0)) := by
  set j0 := dp (mergedValue uuid input f0) f0 with hj0
  have hspec0 : fieldSpec dp uuid execId input f0 = some (f0, j0) := by
    unfold fieldSpec
    rw [hcond0, hj0]
    rfl
  set avr := rest.map (fun f => avSpec (fieldSpec dp uuid execId input f)) with havr
  have hmapnnv : (declaredFields req opt).map
      (fun f => nnvSpec (fieldSpec dp uuid execId input f)) =
      nnvSpec (some (f0, j0)) ::
        rest.map (fun f => nnvSpec (fieldSpec dp uuid execId input f)) := by
    rw [hfields, List.map_cons, hspec0]
  have hmapav : (declaredFields req opt).map
      (fun f => avSpec (fieldSpec dp uuid execId input f)) =
      avSpec (some (f0, j0)) :: avr := by
    rw [hfields, List.map_cons, hspec0, havr]
  have hlenav : (avSpec (some (f0, j0)) :: avr).length = (declaredFields req opt).length := by
    rw [hfields, havr]
    simp
  obtain ⟨sp1, gapM, hsp1, hgapM, htext⟩ :=
    concatText_shape req opt (nnvSpec (some (f0, j0))) (avSpec (some (f0, j0)) :: avr)
      hlenav (by simp)
  have hconcat : concatTask req opt
      ((declaredFields req opt).map (fun f => nnvSpec (fieldSpec dp uuid execId input f)))
      ((declaredFields req opt).map (fun f => avSpec (fieldSpec dp uuid execId input f))) =
      some (statesFormat (concatFormatString req opt)
        ("\x7b" :: nnvSpec (some (f0, j0)) ::
          ((avSpec (some (f0, j0)) :: avr) ++ ["\x7d"]))) := by
    rw [hmapnnv, hmapav]
    rfl
  set T := statesFormat (concatFormatString req opt)
    ("\x7b" :: nnvSpec (some (f0, j0)) :: ((avSpec (some (f0, j0)) :: avr) ++ ["\x7d"]))
    with hT
  have hevalo := evaluate_first_present req opt dp uuid execId input f0 rest hfields
    hplain hcond0
  rw [← hj0] at hevalo
  have hf0rest : f0 ∉ rest := by
    have h2 := hnodup
    rw [hfields] at h2
    exact (List.nodup_cons.mp h2).1
  have hnodupE : ((foldSpecs (setKey [] f0 (canon j0))
      ((declaredFields req opt).map (fieldSpec dp uuid execId input))).map Prod.fst).Nodup :=
    foldSpecs_nodup _ _ (by simp [setKey])
  have hlook : lookupKey (foldSpecs (setKey [] f0 (canon j0))
      ((declaredFields req opt).map (fieldSpec dp uuid execId input))) f0 =
      some (canon j0) := by
    rw [hfields, List.map_cons, hspec0]
    exact foldSpecs_lookup_last _ _ (by
      intro sp hsp j2
      obtain ⟨g, hg, rfl⟩ := List.mem_map.mp hsp
      have hne : g ≠ f0 := fun he => hf0rest (he ▸ hg)
      exact fieldSpec_ne_some hne j2)
  have htj := hevalo
  rw [evaluate_eq_concat, hconcat] at htj
  have hthird : ∃ entries,
      toJsonTask T = some (Json.obj entries) ∧
      evaluate req opt dp uuid execId input = some (Json.obj entries) ∧
      (entries.map Prod.fst).Nodup ∧
      lookupKey entries f0 = some (canon j0) :=
    ⟨_, htj, hevalo, hnodupE, hlook⟩
  have hv0 : (nnvSpec (some (f0, j0))).data = entryChars f0 j0 := rfl
  have hlm : (avSpec (some (f0, j0)) :: avr).length - 2 = avr.length - 1 := by
    simp
  rw [hlm] at htext
  cases hn : avr.length - 1 with
  | zero =>
    rw [hn] at htext
    simp only [List.take_zero, List.drop_zero] at htext
    refine ⟨T, ' ' :: '{' :: sp1, ' ' :: (gapM ++ [',']),
      (' ' :: sj avr) ++ ['\x7d'], hconcat, ?_, hthird⟩
    rw [htext, hv0,
      show sj (avSpec (some (f0, j0)) :: avr) =
        ',' :: (entryChars f0 j0 ++ (' ' :: sj avr)) from rfl,
      show sj ([] : List String) = [] from rfl]
    simp
  | succ m =>
    rw [hn] at htext
    simp only [List.take_succ_cons, List.drop_succ_cons] at htext
    refine ⟨T, ' ' :: '{' :: sp1, [' ', ','],
      (' ' :: sj (avr.take m)) ++ (gapM ++ (sj (avr.drop m) ++ ['\x7d'])),
      hconcat, ?_, hthird⟩
    rw [htext, hv0,
      show sj (avSpec (some (f0, j0)) :: avr.take m) =
        ',' :: (entryChars f0 j0 ++ (' ' :: sj (avr.take m))) from rfl]
    simp


/-- C9, witnessed: schema `required=[id]`, `optional=[tag]`, input
supplying only `id`. -/
theorem C9_duplicated_opening_entry_witness :
    ∃ text pre mid post,
      concatTask ["id"] ["tag"]
          ((declaredFields ["id"] ["tag"]).map
            (fun f => nnvSpec (fieldSpec (fun v _ => Json.arr [v]) (fun g => "u-" ++ g)
              "exec-1" [("id", Json.str "x")] f)))
          ((declaredFields ["id"] ["tag"]).map
            (fun f => avSpec (fieldSpec (fun v _ => Json.arr [v]) (fun g => "u-" ++ g)
              "exec-1" [("id", Json.str "x")] f))) = some text ∧
      text.data =
        pre ++ (entryChars "id" (Json.arr [Json.str "x"]) ++
          (mid ++ (entryChars "id" (Json.arr [Json.str "x"]) ++ post))) ∧
      ∃ entries,
        toJsonTask text = some (Json.obj entries) ∧
        evaluate ["id"] ["tag"] (fun v _ => Json.arr [v]) (fun g => "u-" ++ g)
          "exec-1" [("id", Json.str "x")] = some (Json.obj entries) ∧
        (entries.map Prod.fst).Nodup ∧
        lookupKey entries "id" = some (canon (Json.arr [Json.str "x"])) :=
  C9_duplicated_opening_entry ["id"] ["tag"] (fun v _ => Json.arr [v])
    (fun g => "u-" ++ g) "exec-1" [("id", Json.str "x")] "id" ["tag"]
    rfl (by decide) (by unfold plainKey; decide) rfl


/-- C10: every key of a run's output object is a declared field name:
the enumeration (lines 119-133) projects exactly the declared names, the
branch keeps each item's `propertyName`, and the parsed object's keys
all come from those entries — undeclared input keys never reach the
output. -/
theorem C10_output_keys_declared (req opt : List String) (dp : Json → String → Json)
    (uuid : String → String) (execId : String) (input : List (String × Json))
    (hplain : ∀ g ∈ declaredFields req opt, plainKey g) :
    ∀ entries, evaluate req opt dp uuid execId input = some (Json.obj entries) →
      ∀ k ∈ entries.map Prod.fst, k ∈ declaredFields req opt := by
  intro entries heval k hk
  cases hfe : declaredFields req opt with
  | nil =>
    rw [evaluate_eq_concat, hfe] at heval
    simp [concatTask] at heval
  | cons f0 rest =>
    cases hc0 : choiceCondition (mergedValue uuid input f0) execId with
    | false =>
      have heval2 := evaluate_first_present req opt dp uuid execId input f0 rest hfe
        hplain hc0
      rw [heval2] at heval
      have hent : foldSpecs (setKey [] f0 (canon (dp (mergedValue uuid input f0) f0)))
          ((declaredFields req opt).map (fieldSpec dp uuid execId input)) = entries :=
        Json.obj.inj (Option.some.inj heval)
      rw [← hent] at hk
      rcases foldSpecs_keys _ _ hk with hacc | ⟨j, hj⟩
      · have hkf : k = f0 := by simpa [setKey] using hacc
        rw [hkf]
        exact List.mem_cons_self f0 rest
      · obtain ⟨g, hg, hgs⟩ := List.mem_map.mp hj
        rw [← fieldSpec_fst hgs]
        exact hfe ▸ hg
    | true =>
      by_cases hex : ∃ f1 ∈ declaredFields req opt,
          choiceCondition (mergedValue uuid input f1) execId = false
      · obtain ⟨f1, hf1, hc1⟩ := hex
        rw [evaluate_absent_then_present req opt dp uuid execId input f0 rest hfe hplain
          hc0 f1 hf1 hc1] at heval
        exact absurd heval (by simp)
      · have hall : ∀ f ∈ declaredFields req opt,
            choiceCondition (mergedValue uuid input f) execId = true := by
          intro f hf
          cases hcf : choiceCondition (mergedValue uuid input f) execId with
          | false => exact absurd ⟨f, hf, hcf⟩ hex
          | true => rfl
        rw [evaluate_all_absent req opt dp uuid execId input f0 rest hfe hplain hall]
          at heval
        have hent : ([] : List (String × Json)) = entries :=
          Json.obj.inj (Option.some.inj heval)
        rw [← hent] at hk
        simp at hk


/-- C10, witnessed on a run whose input carries an undeclared key
`extra`: the output holds only declared keys, and `extra` is gone. -/
theorem C10_output_keys_declared_witness :
    evaluate ["id"] ["tag"] (fun v _ => Json.arr [v]) (fun g => "u-" ++ g) "exec-1"
        [("id", Json.str "x"), ("extra", Json.str "y")] =
      some (Json.obj [("id", Json.arr [Json.str "x"]),
        ("tag", Json.arr [Json.str "u-tag"])]) ∧
    ("id" : String) ∈ declaredFields ["id"] ["tag"] :=
  ⟨rfl, C10_output_keys_declared ["id"] ["tag"] (fun v _ => Json.arr [v])
    (fun g => "u-" ++ g) "exec-1" [("id", Json.str "x"), ("extra", Json.str "y")]
    (by unfold plainKey; decide)
    [("id", Json.arr [Json.str "x"]), ("tag", Json.arr [Json.str "u-tag"])] rfl
    "id" (by decide)⟩


end HOP
